import Mathlib

/-!
Verification of the pre.leroy proposals repository.

The repository consists of two C89 header files under src/proposals:
xxxx_array.h, which declares and documents a growable byte-region ADT
(array_allocate and friends, following the documented djb array library),
and a dependency-graph task scheduler surface (task_create, task_depends,
task_start together with struct task_handle).  Neither header is
accompanied by an implementation file, so the behaviour of the operations
is modelled here from the documentation carried by the headers and by the
accompanying design specification; the declared types (in particular
struct task_handle) are embedded directly from the source.
-/

/- ### Part 1: the growable array ADT (xxxx_array.h, array part) -/

/-- SIZE_MAX for the 64-bit size_t used by the header. -/
def SIZE_MAX : Nat := 2 ^ 64 - 1

/-- Modelled from the spec: the implementation of the array ADT is absent
from src/ (the header xxxx_array.h only declares it).  An array variable
is in one of three documented states: unallocated, failed, or allocated
with a dynamically allocated region (a list of byte values) of which a
prefix of initBytes bytes counts as the initialized bytes. -/
inductive ArrayState where
  | unallocated : ArrayState
  | failed : ArrayState
  | allocated (region : List Nat) (initBytes : Nat) : ArrayState
deriving DecidableEq, Repr

/-- Growth policy: allocate somewhat more bytes than necessary, to save
time later (as the header documents for array_allocate). -/
def growSize (wanted : Nat) : Nat := wanted + wanted / 8 + 256

/-- Zero the byte range from a to b inside the region, keeping length. -/
def zeroRange (region : List Nat) (a b : Nat) : List Nat :=
  region.take a ++ List.replicate (min b region.length - a) 0 ++ region.drop b

/-- Modelled from the spec: array_allocate is declared but not implemented
in src/.  Following the header documentation: it ensures at least
(pos+1)*esize bytes are allocated (growing and moving the region if
necessary), ensures the initialized bytes cover those objects by
zero-filling, and returns the byte offset of object number pos.  The
parameter mem models the amount of memory the allocator can still
provide.  If something goes wrong it returns none (the null pointer)
without touching the array: in particular when the array has failed, when
pos is SIZE_MAX, or when not enough memory is available.  It never
switches the array to the failed state itself. -/
def array_allocate (x : ArrayState) (esize pos mem : Nat) :
    Option Nat × ArrayState :=
  match x with
  | .failed => (none, x)
  | .unallocated =>
    if pos = SIZE_MAX then (none, x)
    else
      let wanted := (pos + 1) * esize
      if SIZE_MAX < wanted ∨ mem < growSize wanted then (none, x)
      else (some (pos * esize),
            .allocated (List.replicate (growSize wanted) 0) wanted)
  | .allocated region initBytes =>
    if pos = SIZE_MAX then (none, x)
    else
      let wanted := (pos + 1) * esize
      if SIZE_MAX < wanted then (none, x)
      else if wanted ≤ region.length then
        if initBytes < wanted then
          (some (pos * esize), .allocated (zeroRange region initBytes wanted) wanted)
        else (some (pos * esize), .allocated region initBytes)
      else
        if mem < growSize wanted then (none, x)
        else (some (pos * esize),
              .allocated (region.take initBytes ++
                List.replicate (growSize wanted - initBytes) 0) wanted)

/- ### Part 2: the task handle type declared by the source -/

/-- Width in bits of the C int used by struct task_handle. -/
def intBits : Nat := 32

/-- Number of low bits of the id that hold the table index; the source
comment says lower bits as table index, upper bits as generation counter.
The split point is representative; the source does not fix it. -/
def indexBits : Nat := 16

/-- Embedded from the source: struct task_handle has a single C int field
id.  The null task has id = 0.  The C int is modelled as a 32-bit machine
integer. -/
structure task_handle where
  id : Fin (2 ^ intBits)
deriving DecidableEq, Repr

/-- The null task handle: all bits zero. -/
def nullTaskHandle : task_handle := ⟨0, by norm_num [intBits]⟩

/-- The table index carried by a handle: the lower bits of the id. -/
def handleIndex (h : task_handle) : Nat := h.id.val % 2 ^ indexBits

/-- The generation counter carried by a handle: the upper bits of the id. -/
def handleGeneration (h : task_handle) : Nat := h.id.val / 2 ^ indexBits

/- ### Part 3: the task scheduler, modelled from the spec -/

/-- Modelled from the spec: the scheduler implementation is absent from
src/ (the header only declares task_create, task_depends, task_start).
Caller-visible name for a task in the model: a pair of a slot index and a
generation, as the design spec describes. -/
structure Handle where
  index : Nat
  gen : Nat
deriving DecidableEq, Repr

/-- The reserved null handle: all zero, always invalid. -/
def nullHandle : Handle := ⟨0, 0⟩

/-- Modelled from the spec: lifecycle states of a task. -/
inductive Lifecycle where
  | created : Lifecycle
  | activated : Lifecycle
  | ready : Lifecycle
  | running : Lifecycle
  | completed : Lifecycle
deriving DecidableEq, Repr

/-- Modelled from the spec: a task record holds the lifecycle state, the
prerequisite counter and the successor set.  The payload is irrelevant to
the scheduling claims and is omitted. -/
structure TaskRec where
  state : Lifecycle
  prereq : Nat
  succs : List Handle
deriving DecidableEq, Repr

/-- Modelled from the spec: a slot of the handle table carries the current
generation and, when occupied, a task record. -/
structure Slot where
  gen : Nat
  occ : Option TaskRec
deriving DecidableEq, Repr

/-- Modelled from the spec: the shared scheduling state, consisting of the
handle table, the ready queue, and the multiset of pending completion
notifications (one entry per successor decrement still owed by the
completion cascade). -/
structure Scheduler where
  slots : List Slot
  queue : List Handle
  pending : List Handle
deriving DecidableEq, Repr

/-- Error kinds of the design spec (AllocationError is signaled by the
null handle returned from task_create, per the source comment). -/
inductive Err where
  | invalidHandle : Err
  | invalidEdge : Err
deriving DecidableEq, Repr

/-- Resolve a handle against a slot list: valid only when the slot exists,
its current generation matches the handle, and the slot is occupied. -/
def resolveSlots (slots : List Slot) (h : Handle) : Option TaskRec :=
  match slots[h.index]? with
  | some sl => if sl.gen = h.gen then sl.occ else none
  | none => none

/-- Resolve a handle against the scheduler state. -/
def resolve (s : Scheduler) (h : Handle) : Option TaskRec :=
  resolveSlots s.slots h

/-- The lifecycle state a handle currently names, if it resolves. -/
def stateOf (s : Scheduler) (h : Handle) : Option Lifecycle :=
  (resolve s h).map TaskRec.state

/-- Replace slot j of the table. -/
def setSlot (s : Scheduler) (j : Nat) (sl : Slot) : Scheduler :=
  { s with slots := s.slots.set j sl }

/-- Overwrite the task behind a (resolving) handle, keeping the slot
generation of the handle. -/
def updateTask (s : Scheduler) (h : Handle) (t : TaskRec) : Scheduler :=
  setSlot s h.index ⟨h.gen, some t⟩

/-- Index of the first free slot of the table, if any. -/
def findFree : List Slot → Option Nat
  | [] => none
  | sl :: rest =>
    if sl.occ = none then some 0 else (findFree rest).map (· + 1)

/-- Modelled from the spec: task_create is declared but not implemented in
src/.  It allocates a slot (reusing a freed one if available, bumping its
generation) and returns a handle to a new task in state created, with a
zero prerequisite counter and an empty successor set.  When no slot
remains it signals AllocationError by returning the reserved all-zero
null handle, mutating nothing. -/
def task_create (s : Scheduler) : Handle × Scheduler :=
  match findFree s.slots with
  | none => (nullHandle, s)
  | some j =>
    match s.slots[j]? with
    | none => (nullHandle, s)
    | some sl =>
      (⟨j, sl.gen + 1⟩,
       setSlot s j ⟨sl.gen + 1, some ⟨.created, 0, []⟩⟩)

/-- Modelled from the spec: task_depends is declared but not implemented
in src/.  Following the design spec (add_edge with precursor-first
semantics, matching the source comment that completion of the first
argument starts the registered dependents): it validates both handles,
failing with InvalidHandle if either is stale; it fails with InvalidEdge
on a self-edge or when the successor has already reached running or
completed; on success it appends the successor to the successor set of
the precursor and increments the prerequisite counter of the successor.
Errors are reported in the returned value, at the call itself. -/
def task_depends (s : Scheduler) (hPre hSucc : Handle) :
    Except Err Unit × Scheduler :=
  match resolve s hPre, resolve s hSucc with
  | some tPre, some tSucc =>
    if hPre = hSucc then (.error .invalidEdge, s)
    else if tSucc.state = .running ∨ tSucc.state = .completed then
      (.error .invalidEdge, s)
    else
      (.ok (),
       updateTask (updateTask s hPre { tPre with succs := tPre.succs ++ [hSucc] })
         hSucc { tSucc with prereq := tSucc.prereq + 1 })
  | _, _ => (.error .invalidHandle, s)

/-- Modelled from the spec: task_start is declared but not implemented in
src/.  It validates the handle (InvalidHandle on stale or null input) and
transitions created to activated; if the prerequisite counter is already
zero it transitions directly to ready and pushes the handle onto the
ready queue.  On a task past created it has no effect.  Errors are
reported in the returned value, at the call itself. -/
def task_start (s : Scheduler) (h : Handle) : Except Err Unit × Scheduler :=
  match resolve s h with
  | none => (.error .invalidHandle, s)
  | some t =>
    if t.state = .created then
      if t.prereq = 0 then
        let s1 := updateTask s h { t with state := .ready }
        (.ok (), { s1 with queue := s1.queue ++ [h] })
      else (.ok (), updateTask s h { t with state := .activated })
    else (.ok (), s)

/-- Modelled from the spec: a worker dequeues the head of the ready queue
and transitions the task from ready to running. -/
def stepDequeue (s : Scheduler) : Scheduler :=
  match s.queue with
  | [] => s
  | h :: rest =>
    match resolve s h with
    | some t =>
      if t.state = .ready then
        { updateTask s h { t with state := .running } with queue := rest }
      else s
    | none => s

/-- Modelled from the spec: after the payload returns, the worker
transitions the task from running to completed and hands its successor
set over to the completion cascade (the pending notifications), consuming
the list. -/
def stepComplete (s : Scheduler) (h : Handle) : Scheduler :=
  match resolve s h with
  | some t =>
    if t.state = .running then
      { updateTask s h { t with state := .completed, succs := [] } with
        pending := s.pending ++ t.succs }
    else s
  | none => s

/-- Modelled from the spec: deliver one completion notification to the
successor named by the handle.  It decrements the prerequisite counter
and, exactly when the counter transitions to zero on a task that is in
state activated, transitions the task to ready and pushes it onto the
ready queue. -/
def notifyOne (s0 : Scheduler) (h : Handle) : Scheduler :=
  match resolve s0 h with
  | some t =>
    if t.prereq = 1 ∧ t.state = .activated then
      { updateTask s0 h { t with prereq := 0, state := .ready } with
        queue := s0.queue ++ [h] }
    else updateTask s0 h { t with prereq := t.prereq - 1 }
  | none => s0

/-- Modelled from the spec: one atomic step of the completion cascade,
consuming the first pending notification. -/
def stepNotify (s : Scheduler) : Scheduler :=
  match s.pending with
  | [] => s
  | h :: rest => notifyOne { s with pending := rest } h

/-- Modelled from the spec: the engine recycles a slot once its task is
completed and no more edges reference it as precursor (its successor set
has been consumed), freeing the slot while keeping the generation so that
the next create on the slot bumps it. -/
def stepRecycle (s : Scheduler) (h : Handle) : Scheduler :=
  match resolve s h with
  | some t =>
    if t.state = .completed ∧ t.succs = [] then
      setSlot s h.index ⟨h.gen, none⟩
    else s
  | none => s

/-- Modelled from the spec: the atomic steps of the concurrent system.
An execution is a sequence of such steps; every interleaving of caller
calls and worker activity is some such sequence. -/
inductive Op where
  | create : Op
  | depends (hPre hSucc : Handle) : Op
  | start (h : Handle) : Op
  | dequeue : Op
  | complete (h : Handle) : Op
  | notify : Op
  | recycle (h : Handle) : Op
deriving DecidableEq, Repr

/-- Effect of one atomic step on the shared state. -/
def step (s : Scheduler) (op : Op) : Scheduler :=
  match op with
  | .create => (task_create s).2
  | .depends h1 h2 => (task_depends s h1 h2).2
  | .start h => (task_start s h).2
  | .dequeue => stepDequeue s
  | .complete h => stepComplete s h
  | .notify => stepNotify s
  | .recycle h => stepRecycle s h

/-- The initial scheduler state: a table of n free slots at generation 0,
empty ready queue, no pending notifications. -/
def initSched (n : Nat) : Scheduler :=
  ⟨List.replicate n ⟨0, none⟩, [], []⟩

/-- Run an execution: fold the steps over the state. -/
def run (s : Scheduler) (ops : List Op) : Scheduler :=
  ops.foldl step s

/-- The state after the first t steps of an execution. -/
def sAt (n : Nat) (ops : List Op) (t : Nat) : Scheduler :=
  run (initSched n) (ops.take t)

/-- Numeric rank of a lifecycle state, in the documented order. -/
def rank : Lifecycle → Nat
  | .created => 1
  | .activated => 2
  | .ready => 3
  | .running => 4
  | .completed => 5

/-- Phase of a handle against one slot: 0 before the incarnation the
handle names exists, the lifecycle rank while it is alive, 6 after the
slot has moved past it. -/
def slotPhase (sl : Slot) (h : Handle) : Nat :=
  if sl.gen < h.gen then 0
  else if sl.gen = h.gen then
    match sl.occ with
    | some t => rank t.state
    | none => 6
  else 6

/-- Phase of a handle in a slot table: a single number that tracks the
progress of the incarnation named by the handle. -/
def phase (slots : List Slot) (h : Handle) : Nat :=
  match slots[h.index]? with
  | some sl => slotPhase sl h
  | none => 0

/-- Number of references to a handle held by the successor set of one
occupant. -/
def occSuccCount (o : Option TaskRec) (h : Handle) : Nat :=
  match o with
  | some t => t.succs.count h
  | none => 0

/-- Number of references to a handle held by all successor sets of the
table. -/
def slotsRef (slots : List Slot) (h : Handle) : Nat :=
  (slots.map (fun sl => occSuccCount sl.occ h)).sum

/-- Total number of outstanding references to a handle as a successor:
successor-set occurrences plus pending notifications. -/
def refCount (s : Scheduler) (h : Handle) : Nat :=
  slotsRef s.slots h + s.pending.count h

deriving instance DecidableEq for Except

/-- The step at time t was a successful task_depends registering an edge
onto h as successor. -/
def dependsOkAt (n : Nat) (ops : List Op) (t : Nat) (h : Handle) : Bool :=
  match ops[t]? with
  | some (.depends a b) =>
    decide (b = h) && decide ((task_depends (sAt n ops t) a b).1 = Except.ok ())
  | _ => false

/-- The step at time t was a notify popping a pending notification for h. -/
def notifyPopAt (n : Nat) (ops : List Op) (t : Nat) (h : Handle) : Bool :=
  match ops[t]? with
  | some .notify => decide ((sAt n ops t).pending.head? = some h)
  | _ => false

/-- The step at time t was a notify observing the prerequisite counter of
h transition to exactly zero (a decrement of a counter standing at 1). -/
def zeroObsAt (n : Nat) (ops : List Op) (t : Nat) (h : Handle) : Bool :=
  notifyPopAt n ops t h &&
    decide ((resolve (sAt n ops t) h).map TaskRec.prereq = some 1)

/-- The step at time t pushed h onto the ready queue (the number of
occurrences of h in the queue grew). -/
def pushAt (n : Nat) (ops : List Op) (t : Nat) (h : Handle) : Bool :=
  decide ((sAt n ops t).queue.count h < (sAt n ops (t + 1)).queue.count h)

/-- The step at time t transitioned h into lifecycle state l. -/
def transAt (n : Nat) (ops : List Op) (t : Nat) (h : Handle) (l : Lifecycle) : Bool :=
  decide (stateOf (sAt n ops t) h ≠ some l) &&
    decide (stateOf (sAt n ops (t + 1)) h = some l)

/-- A handle is stale for a table when its slot exists but carries a
different current generation. -/
def stale (s : Scheduler) (h : Handle) : Bool :=
  match s.slots[h.index]? with
  | some sl => decide (sl.gen ≠ h.gen)
  | none => false

/-- Queue invariant: a handle sits in the ready queue exactly once while
its task is in state ready, and never otherwise. -/
def InvQ (s : Scheduler) : Prop :=
  ∀ h : Handle, s.queue.count h = if phase s.slots h = 3 then 1 else 0

/-- Reference invariant: every handle referenced as a successor (in a
successor set or as a pending notification) names a slot whose current
generation is at least the one of the handle. -/
def InvA (s : Scheduler) : Prop :=
  ∀ h : Handle, 0 < refCount s h →
    ∃ sl : Slot, s.slots[h.index]? = some sl ∧ h.gen ≤ sl.gen

/-- Counter invariant: the prerequisite counter of a live task dominates
the number of outstanding references to it as a successor. -/
def InvB (s : Scheduler) : Prop :=
  ∀ h t, resolve s h = some t → refCount s h ≤ t.prereq

/-- Generation invariant: occupied slots carry a positive generation, so
the all-zero null handle never resolves. -/
def InvG (s : Scheduler) : Prop :=
  ∀ j : Nat, ∀ sl : Slot, s.slots[j]? = some sl → sl.occ.isSome = true → 1 ≤ sl.gen

/-- The conjunction of the scheduler invariants. -/
def SchedInv (s : Scheduler) : Prop := InvQ s ∧ InvA s ∧ InvB s ∧ InvG s

/-- The edge from hP to hS is alive: the precursor resolves and still
holds the successor in its successor set. -/
def edgeAlive (s : Scheduler) (hP hS : Handle) : Prop :=
  ∃ t, resolve s hP = some t ∧ hS ∈ t.succs

/-- Demonstration handles for a diamond-shaped dependency graph. -/
def hA : Handle := ⟨0, 1⟩

/-- Second demonstration handle. -/
def hB : Handle := ⟨1, 1⟩

/-- Third demonstration handle. -/
def hC : Handle := ⟨2, 1⟩

/-- Fourth demonstration handle: the join point of the diamond. -/
def hD : Handle := ⟨3, 1⟩

/-- A concrete execution of the diamond graph hA before hB and hC, both
before hD, followed by a recycle of the slot of hA and a fresh create
that bumps the generation of slot 0, making hA stale. -/
def demoOps : List Op :=
  [.create, .create, .create, .create,
   .depends hA hB, .depends hA hC, .depends hB hD, .depends hC hD,
   .start hA, .start hB, .start hC, .start hD,
   .dequeue, .complete hA, .notify, .notify,
   .dequeue, .complete hB, .notify,
   .dequeue, .complete hC, .notify,
   .dequeue, .complete hD, .recycle hA, .create]

/- ### Basic lemmas about resolution and slot updates -/

theorem getElem?_of_resolve {slots : List Slot} {h : Handle} {t : TaskRec}
    (hr : resolveSlots slots h = some t) :
    slots[h.index]? = some ⟨h.gen, some t⟩ := by
  unfold resolveSlots at hr
  split at hr
  · rename_i sl heq
    split at hr
    · rename_i hg
      rw [heq]
      cases sl
      simp_all
    · exact absurd hr (by simp)
  · exact absurd hr (by simp)

theorem index_lt_of_resolve {slots : List Slot} {h : Handle} {t : TaskRec}
    (hr : resolveSlots slots h = some t) : h.index < slots.length := by
  have := getElem?_of_resolve hr
  by_contra hlt
  rw [List.getElem?_eq_none (by omega)] at this
  exact absurd this (by simp)

theorem handle_eq_of_same_index {slots : List Slot} {h h' : Handle}
    {t t' : TaskRec} (hr : resolveSlots slots h = some t)
    (hr' : resolveSlots slots h' = some t') (hi : h.index = h'.index) :
    h = h' ∧ t = t' := by
  have e1 := getElem?_of_resolve hr
  have e2 := getElem?_of_resolve hr'
  rw [hi] at e1
  rw [e1] at e2
  cases h; cases h'
  simp_all

theorem resolveSlots_set_ne {slots : List Slot} {j : Nat} {sl : Slot}
    {h : Handle} (hne : j ≠ h.index) :
    resolveSlots (slots.set j sl) h = resolveSlots slots h := by
  unfold resolveSlots
  rw [List.getElem?_set_ne hne]

theorem resolveSlots_set_self {slots : List Slot} {sl : Slot} {h : Handle}
    (hlt : h.index < slots.length) :
    resolveSlots (slots.set h.index sl) h =
      if sl.gen = h.gen then sl.occ else none := by
  unfold resolveSlots
  rw [List.getElem?_set_self hlt]

theorem phase_set_ne {slots : List Slot} {j : Nat} {sl : Slot} {h : Handle}
    (hne : j ≠ h.index) : phase (slots.set j sl) h = phase slots h := by
  unfold phase
  rw [List.getElem?_set_ne hne]

theorem phase_set_self {slots : List Slot} {sl : Slot} {h : Handle}
    (hlt : h.index < slots.length) :
    phase (slots.set h.index sl) h = slotPhase sl h := by
  unfold phase
  rw [List.getElem?_set_self hlt]

theorem setSlot_slots (s : Scheduler) (j : Nat) (sl : Slot) :
    (setSlot s j sl).slots = s.slots.set j sl := rfl

theorem setSlot_queue (s : Scheduler) (j : Nat) (sl : Slot) :
    (setSlot s j sl).queue = s.queue := rfl

theorem setSlot_pending (s : Scheduler) (j : Nat) (sl : Slot) :
    (setSlot s j sl).pending = s.pending := rfl

theorem updateTask_slots (s : Scheduler) (h : Handle) (t : TaskRec) :
    (updateTask s h t).slots = s.slots.set h.index ⟨h.gen, some t⟩ := rfl

theorem updateTask_queue (s : Scheduler) (h : Handle) (t : TaskRec) :
    (updateTask s h t).queue = s.queue := rfl

theorem updateTask_pending (s : Scheduler) (h : Handle) (t : TaskRec) :
    (updateTask s h t).pending = s.pending := rfl

theorem resolve_updateTask_self {s : Scheduler} {h : Handle} {t0 t : TaskRec}
    (hr : resolve s h = some t0) :
    resolve (updateTask s h t) h = some t := by
  unfold resolve at *
  rw [updateTask_slots, resolveSlots_set_self (index_lt_of_resolve hr)]
  simp

theorem resolve_updateTask_ne {s : Scheduler} {h h' : Handle} {t : TaskRec}
    (hne : h.index ≠ h'.index) :
    resolve (updateTask s h t) h' = resolve s h' := by
  unfold resolve
  rw [updateTask_slots, resolveSlots_set_ne hne]

theorem findFree_some {slots : List Slot} {j : Nat}
    (hf : findFree slots = some j) :
    ∃ sl, slots[j]? = some sl ∧ sl.occ = none := by
  induction slots generalizing j with
  | nil => exact absurd hf (by simp [findFree])
  | cons sl rest ih =>
    unfold findFree at hf
    by_cases hocc : sl.occ = none
    · rw [if_pos hocc] at hf
      cases hf
      exact ⟨sl, by simp, hocc⟩
    · rw [if_neg hocc] at hf
      cases hj : findFree rest with
      | none => rw [hj] at hf; exact absurd hf (by simp)
      | some j0 =>
        rw [hj] at hf
        simp only [Option.map_some'] at hf
        cases hf
        obtain ⟨sl0, hget, ho⟩ := ih hj
        exact ⟨sl0, by simpa using hget, ho⟩

theorem findFree_none {slots : List Slot}
    (hfull : ∀ j, j < slots.length → (slots[j]?.bind Slot.occ).isSome = true) :
    findFree slots = none := by
  induction slots with
  | nil => rfl
  | cons sl rest ih =>
    unfold findFree
    have h0 := hfull 0 (by simp)
    simp only [List.getElem?_cons_zero, Option.some_bind] at h0
    have hocc : ¬ sl.occ = none := by
      intro he
      rw [he] at h0
      exact absurd h0 (by simp)
    rw [if_neg hocc, ih, Option.map_none']
    intro j hj
    have := hfull (j + 1) (by simpa using Nat.succ_lt_succ hj)
    simpa using this

/- ### Phase monotonicity: the progress measure never decreases -/

theorem lt_of_getElem?_some {α : Type} {l : List α} {j : Nat} {a : α}
    (hg : l[j]? = some a) : j < l.length := by
  by_contra hlt
  rw [List.getElem?_eq_none (by omega)] at hg
  exact absurd hg (by simp)

theorem rank_le_five (l : Lifecycle) : rank l ≤ 5 := by
  cases l <;> simp [rank]

theorem slotPhase_occ_mono {g : Nat} {t t' : TaskRec}
    (hle : rank t.state ≤ rank t'.state) (h : Handle) :
    slotPhase ⟨g, some t⟩ h ≤ slotPhase ⟨g, some t'⟩ h := by
  unfold slotPhase
  by_cases h1 : g < h.gen
  · simp [h1]
  · by_cases h2 : g = h.gen
    · simpa [h1, h2] using hle
    · simp [h1, h2]

theorem slotPhase_recycle_mono {g : Nat} {t : TaskRec} (h : Handle) :
    slotPhase ⟨g, some t⟩ h ≤ slotPhase ⟨g, none⟩ h := by
  unfold slotPhase
  by_cases h1 : g < h.gen
  · simp [h1]
  · by_cases h2 : g = h.gen
    · have := rank_le_five t.state
      simp only [h1, h2, if_false, if_true, ite_true, ite_false]
      simp
      omega
    · simp [h1, h2]

theorem slotPhase_create_mono {g : Nat} (t : TaskRec) (h : Handle) :
    slotPhase ⟨g, none⟩ h ≤ slotPhase ⟨g + 1, some t⟩ h := by
  unfold slotPhase
  by_cases h1 : g + 1 < h.gen
  · simp [h1, show g < h.gen by omega]
  · by_cases h2 : g + 1 = h.gen
    · simp [h1, h2, show g < h.gen by omega]
    · have hgt : ¬ g < h.gen := by omega
      by_cases h3 : g = h.gen
      · simp [hgt, h3, show ¬ h.gen + 1 < h.gen by omega,
          show ¬ h.gen + 1 = h.gen by omega]
      · simp [hgt, h1, h2, h3]

theorem phase_update_mono {slots : List Slot} {j : Nat} {sl sl' : Slot}
    (hget : slots[j]? = some sl)
    (hle : ∀ h, slotPhase sl h ≤ slotPhase sl' h) (h : Handle) :
    phase slots h ≤ phase (slots.set j sl') h := by
  by_cases hj : j = h.index
  · subst hj
    rw [phase_set_self (lt_of_getElem?_some hget)]
    unfold phase
    rw [hget]
    exact hle h
  · rw [phase_set_ne hj]

theorem phase_mono_updateTask {s : Scheduler} {h0 : Handle} {t0 : TaskRec}
    (hr : resolve s h0 = some t0) (t' : TaskRec)
    (hle : rank t0.state ≤ rank t'.state) (h : Handle) :
    phase s.slots h ≤ phase (updateTask s h0 t').slots h := by
  rw [updateTask_slots]
  exact phase_update_mono (getElem?_of_resolve hr)
    (fun h => slotPhase_occ_mono hle h) h

theorem phase_mono_create (s : Scheduler) (h : Handle) :
    phase s.slots h ≤ phase ((task_create s).2).slots h := by
  unfold task_create
  split
  · exact Nat.le_refl _
  · rename_i j hf
    split
    · exact Nat.le_refl _
    · rename_i sl hget
      rw [setSlot_slots]
      obtain ⟨sl', hget', hocc'⟩ := findFree_some hf
      rw [hget] at hget'
      cases hget'
      cases sl
      simp only at hocc'
      subst hocc'
      exact phase_update_mono hget (fun h => slotPhase_create_mono _ h) h

theorem phase_mono_depends (s : Scheduler) (h1 h2 : Handle) (h : Handle) :
    phase s.slots h ≤ phase ((task_depends s h1 h2).2).slots h := by
  unfold task_depends
  split
  · rename_i tPre tSucc hr1 hr2
    split
    · exact Nat.le_refl _
    · split
      · exact Nat.le_refl _
      · rename_i hne hst
        have hi : h1.index ≠ h2.index := by
          intro he
          exact hne (handle_eq_of_same_index hr1 hr2 he).1
        dsimp only
        refine Nat.le_trans
          (phase_mono_updateTask hr1
            { tPre with succs := tPre.succs ++ [h2] } (Nat.le_refl _) h) ?_
        have hr2' : resolve (updateTask s h1
            { tPre with succs := tPre.succs ++ [h2] }) h2 = some tSucc := by
          rw [resolve_updateTask_ne hi]
          exact hr2
        exact phase_mono_updateTask hr2'
          { tSucc with prereq := tSucc.prereq + 1 } (Nat.le_refl _) h
  · exact Nat.le_refl _

theorem phase_mono_start (s : Scheduler) (h0 : Handle) (h : Handle) :
    phase s.slots h ≤ phase ((task_start s h0).2).slots h := by
  unfold task_start
  split
  · exact Nat.le_refl _
  · rename_i t hr
    split
    · rename_i hst
      split
      · exact phase_mono_updateTask hr _ (by rw [hst]; simp [rank]) h
      · exact phase_mono_updateTask hr _ (by rw [hst]; simp [rank]) h
    · exact Nat.le_refl _

theorem phase_mono_dequeue (s : Scheduler) (h : Handle) :
    phase s.slots h ≤ phase (stepDequeue s).slots h := by
  unfold stepDequeue
  split
  · exact Nat.le_refl _
  · split
    · rename_i h0 rest t hr
      split
      · rename_i hst
        exact phase_mono_updateTask hr _ (by rw [hst]; simp [rank]) h
      · exact Nat.le_refl _
    · exact Nat.le_refl _

theorem phase_mono_complete (s : Scheduler) (h0 : Handle) (h : Handle) :
    phase s.slots h ≤ phase ((stepComplete s h0)).slots h := by
  unfold stepComplete
  split
  · rename_i t hr
    split
    · rename_i hst
      exact phase_mono_updateTask hr _ (by rw [hst]; simp [rank]) h
    · exact Nat.le_refl _
  · exact Nat.le_refl _

theorem phase_mono_notifyOne (s0 : Scheduler) (h0 h : Handle) :
    phase s0.slots h ≤ phase (notifyOne s0 h0).slots h := by
  unfold notifyOne
  split
  · rename_i t hr
    split
    · rename_i hcond
      exact phase_mono_updateTask hr _ (by rw [hcond.2]; simp [rank]) h
    · exact phase_mono_updateTask hr
        { t with prereq := t.prereq - 1 } (Nat.le_refl _) h
  · exact Nat.le_refl _

theorem phase_mono_notify (s : Scheduler) (h : Handle) :
    phase s.slots h ≤ phase (stepNotify s).slots h := by
  unfold stepNotify
  split
  · exact Nat.le_refl _
  · rename_i h0 rest hpend
    exact phase_mono_notifyOne { s with pending := rest } h0 h

theorem phase_mono_recycle (s : Scheduler) (h0 : Handle) (h : Handle) :
    phase s.slots h ≤ phase ((stepRecycle s h0)).slots h := by
  unfold stepRecycle
  split
  · rename_i t hr
    split
    · rw [setSlot_slots]
      exact phase_update_mono (getElem?_of_resolve hr)
        (fun h => slotPhase_recycle_mono h) h
    · exact Nat.le_refl _
  · exact Nat.le_refl _

theorem step_phase_mono (s : Scheduler) (op : Op) (h : Handle) :
    phase s.slots h ≤ phase (step s op).slots h := by
  cases op with
  | create => exact phase_mono_create s h
  | depends h1 h2 => exact phase_mono_depends s h1 h2 h
  | start h0 => exact phase_mono_start s h0 h
  | dequeue => exact phase_mono_dequeue s h
  | complete h0 => exact phase_mono_complete s h0 h
  | notify => exact phase_mono_notify s h
  | recycle h0 => exact phase_mono_recycle s h0 h

theorem sAt_succ_none {n : Nat} {ops : List Op} {t : Nat}
    (hop : ops[t]? = none) : sAt n ops (t + 1) = sAt n ops t := by
  unfold sAt run
  rw [List.take_succ, hop]
  simp

theorem sAt_succ_some {n : Nat} {ops : List Op} {t : Nat} {op : Op}
    (hop : ops[t]? = some op) :
    sAt n ops (t + 1) = step (sAt n ops t) op := by
  unfold sAt run
  rw [List.take_succ, hop]
  simp [List.foldl_append]

theorem sAt_phase_succ_mono (n : Nat) (ops : List Op) (h : Handle) (t : Nat) :
    phase (sAt n ops t).slots h ≤ phase (sAt n ops (t + 1)).slots h := by
  cases hop : ops[t]? with
  | none => rw [sAt_succ_none hop]
  | some op =>
    rw [sAt_succ_some hop]
    exact step_phase_mono _ op h

theorem sAt_phase_mono (n : Nat) (ops : List Op) (h : Handle) {t t' : Nat}
    (hle : t ≤ t') :
    phase (sAt n ops t).slots h ≤ phase (sAt n ops t').slots h := by
  induction hle with
  | refl => exact Nat.le_refl _
  | step _ ih => exact Nat.le_trans ih (sAt_phase_succ_mono n ops h _)


/- ### Correspondence between lifecycle states and phases -/

theorem rankPos (l : Lifecycle) : 1 ≤ rank l := by
  cases l <;> simp [rank]

theorem rankInjective {l l' : Lifecycle} (he : rank l = rank l') : l = l' := by
  cases l <;> cases l' <;> simp_all [rank]

theorem phase_of_resolve {s : Scheduler} {h : Handle} {t : TaskRec}
    (hr : resolve s h = some t) : phase s.slots h = rank t.state := by
  unfold phase
  rw [getElem?_of_resolve hr]
  show slotPhase ⟨h.gen, some t⟩ h = rank t.state
  unfold slotPhase
  simp

theorem resolve_none_phase {s : Scheduler} {h : Handle}
    (hr : resolve s h = none) :
    phase s.slots h = 0 ∨ phase s.slots h = 6 := by
  unfold resolve resolveSlots at hr
  unfold phase
  split at hr
  · rename_i sl heq
    split at hr
    · rename_i hg
      unfold slotPhase
      rw [hg]
      simp [hr]
    · rename_i hg
      unfold slotPhase
      by_cases h1 : sl.gen < h.gen
      · simp [h1]
      · simp [h1, hg]
  · simp

theorem stateOf_iff_phase {s : Scheduler} {h : Handle} {l : Lifecycle} :
    stateOf s h = some l ↔ phase s.slots h = rank l := by
  constructor
  · intro hst
    unfold stateOf at hst
    cases hr : resolve s h with
    | none => rw [hr] at hst; exact absurd hst (by simp)
    | some t =>
      rw [hr] at hst
      simp only [Option.map_some'] at hst
      rw [phase_of_resolve hr]
      rw [show t.state = l by simpa using hst]
  · intro hph
    cases hr : resolve s h with
    | none =>
      rcases resolve_none_phase hr with h0 | h6
      · rw [h0] at hph
        exact absurd hph.symm (by have := rankPos l; omega)
      · rw [h6] at hph
        exact absurd hph.symm (by have := rank_le_five l; omega)
    | some t =>
      rw [phase_of_resolve hr] at hph
      unfold stateOf
      rw [hr]
      simp [rankInjective hph]

theorem phase_initSched (n : Nat) (h : Handle) :
    phase (initSched n).slots h = 0 ∨ phase (initSched n).slots h = 6 := by
  unfold initSched phase
  simp only [List.getElem?_replicate]
  by_cases hlt : h.index < n
  · rw [if_pos hlt]
    show slotPhase ⟨0, none⟩ h = 0 ∨ slotPhase ⟨0, none⟩ h = 6
    unfold slotPhase
    by_cases h1 : 0 < h.gen
    · simp [h1]
    · simp [h1, show (0 : Nat) = h.gen by omega]
  · rw [if_neg hlt]
    simp

/- ### Fine-grained phase change lemmas for slot updates -/

theorem phase_update_other {slots : List Slot} {j g : Nat} {o : Option TaskRec}
    (hget : slots[j]? = some ⟨g, o⟩) (o' : Option TaskRec) {h : Handle}
    (hne : h ≠ ⟨j, g⟩) :
    phase (slots.set j ⟨g, o'⟩) h = phase slots h := by
  by_cases hj : j = h.index
  · subst hj
    have hgen : ¬ g = h.gen := by
      intro he
      apply hne
      cases h
      simp_all
    rw [phase_set_self (lt_of_getElem?_some hget)]
    unfold phase
    rw [hget]
    show slotPhase ⟨g, o'⟩ h = slotPhase ⟨g, o⟩ h
    unfold slotPhase
    by_cases h1 : g < h.gen
    · simp [h1]
    · simp [h1, hgen]
  · rw [phase_set_ne hj]

theorem phase_update_at {slots : List Slot} {h : Handle}
    (hlt : h.index < slots.length) (t : TaskRec) :
    phase (slots.set h.index ⟨h.gen, some t⟩) h = rank t.state := by
  rw [phase_set_self hlt]
  unfold slotPhase
  simp

theorem phase_update_at_none {slots : List Slot} {h : Handle}
    (hlt : h.index < slots.length) :
    phase (slots.set h.index ⟨h.gen, (none : Option TaskRec)⟩) h = 6 := by
  rw [phase_set_self hlt]
  unfold slotPhase
  simp

theorem phase_updateTask_other {s : Scheduler} {h0 : Handle} {t0 : TaskRec}
    (hr : resolve s h0 = some t0) (t' : TaskRec) {h : Handle} (hne : h ≠ h0) :
    phase (updateTask s h0 t').slots h = phase s.slots h := by
  rw [updateTask_slots]
  exact phase_update_other (getElem?_of_resolve hr) (some t') hne

theorem phase_updateTask_at {s : Scheduler} {h0 : Handle} {t0 : TaskRec}
    (hr : resolve s h0 = some t0) (t' : TaskRec) :
    phase (updateTask s h0 t').slots h0 = rank t'.state := by
  rw [updateTask_slots]
  exact phase_update_at (index_lt_of_resolve hr) t'

/- ### Preservation of the queue invariant -/

theorem phase_updateTask_congr {s : Scheduler} {h0 : Handle} {t0 : TaskRec}
    (hr : resolve s h0 = some t0) (t' : TaskRec)
    (hrank : rank t'.state = rank t0.state) (h : Handle) :
    phase (updateTask s h0 t').slots h = phase s.slots h := by
  by_cases he : h = h0
  · subst he
    rw [phase_updateTask_at hr t', phase_of_resolve hr, hrank]
  · exact phase_updateTask_other hr t' he

theorem phase_create_other {slots : List Slot} {j g : Nat}
    (hget : slots[j]? = some ⟨g, none⟩) (t : TaskRec) {h : Handle}
    (hne : h ≠ ⟨j, g + 1⟩) :
    phase (slots.set j ⟨g + 1, some t⟩) h = phase slots h := by
  by_cases hj : j = h.index
  · subst hj
    have hgen : ¬ h.gen = g + 1 := by
      intro he
      apply hne
      cases h
      simp_all
    rw [phase_set_self (lt_of_getElem?_some hget)]
    unfold phase
    rw [hget]
    show slotPhase ⟨g + 1, some t⟩ h = slotPhase ⟨g, none⟩ h
    unfold slotPhase
    by_cases c1 : g + 1 < h.gen
    · simp [c1, show g < h.gen by omega]
    · by_cases c2 : g < h.gen
      · exact absurd (by omega) hgen
      · have c3 : ¬ g + 1 = h.gen := by omega
        simp only [c1, c2, c3, if_false]
        by_cases c4 : g = h.gen
        · simp [c4]
        · simp [c4]
  · rw [phase_set_ne hj]

theorem invQ_of_congr {s s' : Scheduler} (hq : InvQ s)
    (hqueue : s'.queue = s.queue)
    (hall : ∀ h, phase s'.slots h = phase s.slots h) : InvQ s' := by
  intro h
  rw [hqueue, hall h]
  exact hq h

theorem invQ_of_untouched {s s' : Scheduler} (hq : InvQ s)
    (hqueue : s'.queue = s.queue) (h0 : Handle)
    (hold : phase s.slots h0 ≠ 3) (hnew : phase s'.slots h0 ≠ 3)
    (hother : ∀ h, h ≠ h0 → phase s'.slots h = phase s.slots h) :
    InvQ s' := by
  intro h
  rw [hqueue]
  by_cases he : h = h0
  · subst he
    rw [if_neg hnew, hq h, if_neg hold]
  · rw [hother h he]
    exact hq h

theorem invQ_of_push {s s' : Scheduler} (hq : InvQ s) (h0 : Handle)
    (hqueue : s'.queue = s.queue ++ [h0])
    (hold : phase s.slots h0 ≠ 3) (hnew : phase s'.slots h0 = 3)
    (hother : ∀ h, h ≠ h0 → phase s'.slots h = phase s.slots h) :
    InvQ s' := by
  intro h
  rw [hqueue, List.count_append]
  by_cases he : h = h0
  · subst he
    rw [if_pos hnew, hq h, if_neg hold]
    simp
  · rw [hother h he, hq h]
    have hc : List.count h [h0] = 0 := by
      simp [List.count_cons, Ne.symm he]
    rw [hc]
    simp

theorem invQ_of_pop {s s' : Scheduler} (hq : InvQ s) (h0 : Handle)
    (rest : List Handle)
    (hqo : s.queue = h0 :: rest) (hqn : s'.queue = rest)
    (hold : phase s.slots h0 = 3) (hnew : phase s'.slots h0 ≠ 3)
    (hother : ∀ h, h ≠ h0 → phase s'.slots h = phase s.slots h) :
    InvQ s' := by
  intro h
  rw [hqn]
  by_cases he : h = h0
  · subst he
    have hc := hq h
    rw [hqo, if_pos hold] at hc
    simp only [List.count_cons, beq_self_eq_true, if_true] at hc
    rw [if_neg hnew]
    omega
  · have hc := hq h
    rw [hqo] at hc
    simp only [List.count_cons, beq_iff_eq, Ne.symm he, if_false] at hc
    rw [hother h he]
    omega

theorem invQ_create {s : Scheduler} (hq : InvQ s) :
    InvQ (task_create s).2 := by
  unfold task_create
  split
  · exact hq
  · rename_i j hf
    split
    · exact hq
    · rename_i sl hget
      obtain ⟨sl', hget', hocc'⟩ := findFree_some hf
      rw [hget] at hget'
      cases hget'
      cases sl
      simp only at hocc'
      subst hocc'
      rename_i g
      refine invQ_of_untouched hq rfl ⟨j, g + 1⟩ ?_ ?_ ?_
      · unfold phase
        rw [hget]
        show slotPhase ⟨g, none⟩ ⟨j, g + 1⟩ ≠ 3
        unfold slotPhase
        simp
      · have hph : phase ((setSlot s j
            ⟨g + 1, some ⟨.created, 0, []⟩⟩).slots) ⟨j, g + 1⟩
            = rank .created :=
          phase_update_at (by simpa using lt_of_getElem?_some hget) _
        rw [hph]
        simp [rank]
      · intro h hne
        rw [setSlot_slots]
        exact phase_create_other hget _ hne

theorem invQ_depends {s : Scheduler} (hq : InvQ s) (h1 h2 : Handle) :
    InvQ (task_depends s h1 h2).2 := by
  unfold task_depends
  split
  · rename_i tPre tSucc hr1 hr2
    split
    · exact hq
    · split
      · exact hq
      · rename_i hne hst
        have hi : h1.index ≠ h2.index := by
          intro he
          exact hne (handle_eq_of_same_index hr1 hr2 he).1
        have hr2' : resolve (updateTask s h1
            { tPre with succs := tPre.succs ++ [h2] }) h2 = some tSucc := by
          rw [resolve_updateTask_ne hi]
          exact hr2
        have hmid : InvQ (updateTask s h1
            { tPre with succs := tPre.succs ++ [h2] }) :=
          invQ_of_congr hq rfl (phase_updateTask_congr hr1 _ rfl)
        exact invQ_of_congr hmid rfl (phase_updateTask_congr hr2' _ rfl)
  · exact hq

theorem invQ_start {s : Scheduler} (hq : InvQ s) (h0 : Handle) :
    InvQ (task_start s h0).2 := by
  unfold task_start
  split
  · exact hq
  · rename_i t hr
    split
    · rename_i hst
      split
      · rename_i hz
        refine invQ_of_push hq h0 rfl ?_ ?_ ?_
        · rw [phase_of_resolve hr, hst] <;> simp [rank]
        · show phase (updateTask s h0 { t with state := .ready }).slots h0 = 3
          rw [phase_updateTask_at hr] <;> simp [rank]
        · intro h hne
          exact phase_updateTask_other hr _ hne
      · refine invQ_of_untouched hq rfl h0 ?_ ?_ ?_
        · rw [phase_of_resolve hr, hst] <;> simp [rank]
        · rw [phase_updateTask_at hr] <;> simp [rank]
        · intro h hne
          exact phase_updateTask_other hr _ hne
    · exact hq

theorem invQ_dequeue {s : Scheduler} (hq : InvQ s) :
    InvQ (stepDequeue s) := by
  unfold stepDequeue
  split
  · exact hq
  · rename_i h0 rest hqo
    split
    · rename_i t hr
      split
      · rename_i hst
        refine invQ_of_pop hq h0 rest hqo rfl ?_ ?_ ?_
        · rw [phase_of_resolve hr, hst] <;> simp [rank]
        · show phase (updateTask s h0 { t with state := .running }).slots h0 ≠ 3
          rw [phase_updateTask_at hr] <;> simp [rank]
        · intro h hne
          exact phase_updateTask_other hr _ hne
      · exact hq
    · exact hq

theorem invQ_complete {s : Scheduler} (hq : InvQ s) (h0 : Handle) :
    InvQ (stepComplete s h0) := by
  unfold stepComplete
  split
  · rename_i t hr
    split
    · rename_i hst
      refine invQ_of_untouched hq rfl h0 ?_ ?_ ?_
      · rw [phase_of_resolve hr, hst] <;> simp [rank]
      · show phase (updateTask s h0
          { t with state := .completed, succs := [] }).slots h0 ≠ 3
        rw [phase_updateTask_at hr] <;> simp [rank]
      · intro h hne
        exact phase_updateTask_other hr _ hne
    · exact hq
  · exact hq

theorem invQ_notifyOne {s0 : Scheduler} (hq : InvQ s0) (h0 : Handle) :
    InvQ (notifyOne s0 h0) := by
  unfold notifyOne
  split
  · rename_i t hr
    split
    · rename_i hcond
      refine invQ_of_push hq h0 rfl ?_ ?_ ?_
      · rw [phase_of_resolve hr, hcond.2] <;> simp [rank]
      · show phase (updateTask s0 h0
          { t with prereq := 0, state := .ready }).slots h0 = 3
        rw [phase_updateTask_at hr] <;> simp [rank]
      · intro h hne
        exact phase_updateTask_other hr _ hne
    · exact invQ_of_congr hq rfl (phase_updateTask_congr hr _ rfl)
  · exact hq

theorem invQ_notify {s : Scheduler} (hq : InvQ s) :
    InvQ (stepNotify s) := by
  unfold stepNotify
  split
  · exact hq
  · rename_i h0 rest hpend
    exact invQ_notifyOne (show InvQ { s with pending := rest } from hq) h0

theorem invQ_recycle {s : Scheduler} (hq : InvQ s) (h0 : Handle) :
    InvQ (stepRecycle s h0) := by
  unfold stepRecycle
  split
  · rename_i t hr
    split
    · rename_i hcond
      refine invQ_of_untouched hq rfl h0 ?_ ?_ ?_
      · rw [phase_of_resolve hr, hcond.1] <;> simp [rank]
      · show phase (setSlot s h0.index ⟨h0.gen, none⟩).slots h0 ≠ 3
        rw [setSlot_slots]
        rw [phase_update_at_none (index_lt_of_resolve hr)]
        simp
      · intro h hne
        rw [setSlot_slots]
        exact phase_update_other (getElem?_of_resolve hr) none hne
    · exact hq
  · exact hq

theorem invQ_step {s : Scheduler} (hq : InvQ s) (op : Op) :
    InvQ (step s op) := by
  cases op with
  | create => exact invQ_create hq
  | depends h1 h2 => exact invQ_depends hq h1 h2
  | start h0 => exact invQ_start hq h0
  | dequeue => exact invQ_dequeue hq
  | complete h0 => exact invQ_complete hq h0
  | notify => exact invQ_notify hq
  | recycle h0 => exact invQ_recycle hq h0

theorem invQ_initSched (n : Nat) : InvQ (initSched n) := by
  intro h
  rcases phase_initSched n h with h0 | h6
  · rw [h0]
    simp [initSched]
  · rw [h6]
    simp [initSched]

theorem invQ_run {s : Scheduler} (hq : InvQ s) (ops : List Op) :
    InvQ (run s ops) := by
  induction ops generalizing s with
  | nil => exact hq
  | cons op rest ih => exact ih (invQ_step hq op)

theorem invQ_sAt (n : Nat) (ops : List Op) (t : Nat) :
    InvQ (sAt n ops t) :=
  invQ_run (invQ_initSched n) _

/- ### The generation invariant -/

theorem invG_setSlot {s : Scheduler} (hg : InvG s) {j : Nat} {sl' : Slot}
    (hcond : sl'.occ.isSome = true → 1 ≤ sl'.gen) :
    InvG (setSlot s j sl') := by
  intro j0 sl0 hget hocc
  rw [setSlot_slots, List.getElem?_set] at hget
  split at hget
  · split at hget
    · cases hget
      exact hcond hocc
    · exact absurd hget (by simp)
  · exact hg j0 sl0 hget hocc

theorem invG_resolve_ge_one {s : Scheduler} (hg : InvG s) {h : Handle}
    {t : TaskRec} (hr : resolve s h = some t) : 1 ≤ h.gen :=
  hg h.index _ (getElem?_of_resolve hr) (by simp)

theorem invG_updateTask {s : Scheduler} (hg : InvG s) {h0 : Handle}
    {t0 : TaskRec} (hr : resolve s h0 = some t0) (t' : TaskRec) :
    InvG (updateTask s h0 t') :=
  invG_setSlot hg (fun _ => invG_resolve_ge_one hg hr)

theorem invG_step {s : Scheduler} (hg : InvG s) (op : Op) :
    InvG (step s op) := by
  cases op with
  | create =>
    show InvG (task_create s).2
    unfold task_create
    split
    · exact hg
    · split
      · exact hg
      · exact invG_setSlot hg (fun _ => Nat.succ_le_succ (Nat.zero_le _))
  | depends h1 h2 =>
    show InvG (task_depends s h1 h2).2
    unfold task_depends
    split
    · rename_i tPre tSucc hr1 hr2
      split
      · exact hg
      · split
        · exact hg
        · rename_i hne hst
          have hi : h1.index ≠ h2.index := by
            intro he
            exact hne (handle_eq_of_same_index hr1 hr2 he).1
          have hr2' : resolve (updateTask s h1
              { tPre with succs := tPre.succs ++ [h2] }) h2 = some tSucc := by
            rw [resolve_updateTask_ne hi]
            exact hr2
          exact invG_updateTask (invG_updateTask hg hr1 _) hr2' _
    · exact hg
  | start h0 =>
    show InvG (task_start s h0).2
    unfold task_start
    split
    · exact hg
    · rename_i t hr
      split
      · split
        · exact invG_updateTask hg hr _
        · exact invG_updateTask hg hr _
      · exact hg
  | dequeue =>
    show InvG (stepDequeue s)
    unfold stepDequeue
    split
    · exact hg
    · split
      · rename_i h0 rest hqo t hr
        split
        · exact invG_updateTask hg hr _
        · exact hg
      · exact hg
  | complete h0 =>
    show InvG (stepComplete s h0)
    unfold stepComplete
    split
    · rename_i t hr
      split
      · exact invG_updateTask hg hr _
      · exact hg
    · exact hg
  | notify =>
    show InvG (stepNotify s)
    unfold stepNotify
    split
    · exact hg
    · rename_i h0 rest hpend
      show InvG (notifyOne { s with pending := rest } h0)
      unfold notifyOne
      split
      · rename_i t hr
        have hg0 : InvG { s with pending := rest } := hg
        split
        · exact invG_updateTask hg0 hr _
        · exact invG_updateTask hg0 hr _
      · exact hg
  | recycle h0 =>
    show InvG (stepRecycle s h0)
    unfold stepRecycle
    split
    · rename_i t hr
      split
      · exact invG_setSlot hg (by intro hs; exact absurd hs (by simp))
      · exact hg
    · exact hg

theorem invG_initSched (n : Nat) : InvG (initSched n) := by
  intro j sl hget hocc
  unfold initSched at hget
  simp only [List.getElem?_replicate] at hget
  split at hget
  · cases hget
    exact absurd hocc (by simp)
  · exact absurd hget (by simp)

theorem invG_run {s : Scheduler} (hg : InvG s) (ops : List Op) :
    InvG (run s ops) := by
  induction ops generalizing s with
  | nil => exact hg
  | cons op rest ih => exact ih (invG_step hg op)

theorem resolve_null_of_invG {s : Scheduler} (hg : InvG s) :
    resolve s nullHandle = none := by
  unfold resolve resolveSlots
  split
  · rename_i sl hget
    by_cases hgen : sl.gen = nullHandle.gen
    · rw [if_pos hgen]
      cases hso : sl.occ with
      | none => rfl
      | some t =>
        have h1 := hg _ sl hget (by rw [hso]; rfl)
        rw [hgen] at h1
        exact absurd h1 (by simp [nullHandle])
    · rw [if_neg hgen]
  · rfl

/- ### Behaviour of the operations on invalid input -/

theorem task_start_invalid {s : Scheduler} {h : Handle}
    (hres : resolve s h = none) :
    task_start s h = (.error .invalidHandle, s) := by
  unfold task_start
  split
  · rfl
  · rename_i t hr
    rw [hres] at hr
    exact absurd hr (by simp)

theorem task_depends_invalid_left {s : Scheduler} {h h' : Handle}
    (hres : resolve s h = none) :
    task_depends s h h' = (.error .invalidHandle, s) := by
  unfold task_depends
  split
  · rename_i tPre tSucc hr1 hr2
    rw [hres] at hr1
    exact absurd hr1 (by simp)
  · rfl

theorem task_depends_invalid_right {s : Scheduler} {h h' : Handle}
    (hres : resolve s h = none) :
    task_depends s h' h = (.error .invalidHandle, s) := by
  unfold task_depends
  split
  · rename_i tPre tSucc hr1 hr2
    rw [hres] at hr2
    exact absurd hr2 (by simp)
  · rfl

theorem stale_resolve_none {s : Scheduler} {h : Handle}
    (hst : stale s h = true) : resolve s h = none := by
  unfold stale at hst
  split at hst
  · rename_i sl hget
    have hne : sl.gen ≠ h.gen := by simpa using hst
    unfold resolve resolveSlots
    split
    · rename_i sl2 hget2
      rw [hget] at hget2
      cases hget2
      rw [if_neg hne]
    · rfl
  · exact absurd hst (by simp)

/-- C4: a stale handle (one whose generation no longer matches the
current generation of its slot) and the reserved all-zero null handle
never resolve in any reachable state; task_start and task_depends
(activate and add_edge) reject them with InvalidHandle and leave the
whole state, in particular the task currently occupying the slot,
untouched. -/
theorem claim_stale_handle_rejected (n : Nat) (ops : List Op)
    (h h' : Handle)
    (hcond : stale (run (initSched n) ops) h = true ∨ h = nullHandle) :
    resolve (run (initSched n) ops) h = none
    ∧ task_start (run (initSched n) ops) h
        = (.error .invalidHandle, run (initSched n) ops)
    ∧ task_depends (run (initSched n) ops) h h'
        = (.error .invalidHandle, run (initSched n) ops)
    ∧ task_depends (run (initSched n) ops) h' h
        = (.error .invalidHandle, run (initSched n) ops) := by
  have hres : resolve (run (initSched n) ops) h = none := by
    rcases hcond with hst | hnull
    · exact stale_resolve_none hst
    · subst hnull
      exact resolve_null_of_invG (invG_run (invG_initSched n) ops)
  exact ⟨hres, task_start_invalid hres, task_depends_invalid_left hres,
    task_depends_invalid_right hres⟩

set_option maxRecDepth 8192 in
/-- Witness for C4 at a concrete input: after the demonstration run the
handle hA is stale (its slot was recycled and re-created), and both
operations reject it with InvalidHandle without touching the state. -/
theorem claim_stale_handle_rejected_witness :
    (task_start (run (initSched 4) demoOps) hA).1
      = Except.error Err.invalidHandle :=
  congrArg Prod.fst
    ((claim_stale_handle_rejected 4 demoOps hA hB (Or.inl (by decide))).2.1)

theorem task_depends_invalid_edge {s : Scheduler} {hP hS : Handle}
    {tP tS : TaskRec}
    (hrP : resolve s hP = some tP) (hrS : resolve s hS = some tS)
    (hbad : hP = hS ∨ tS.state = .running ∨ tS.state = .completed) :
    task_depends s hP hS = (.error .invalidEdge, s) := by
  unfold task_depends
  split
  · rename_i tP2 tS2 hr1 hr2
    rw [hrP] at hr1
    rw [hrS] at hr2
    cases hr1
    cases hr2
    split
    · rfl
    · rename_i hne
      split
      · rfl
      · rename_i hst
        rcases hbad with h1 | h2 | h3
        · exact absurd h1 hne
        · exact absurd (Or.inl h2) hst
        · exact absurd (Or.inr h3) hst
  · rename_i hcontra
    exact (hcontra tP tS hrP hrS).elim

/-- C5: add_edge (task_depends) fails with InvalidEdge on a self-edge or
when the successor has already reached running or completed, and on such
a failure the state is returned unchanged: in particular the successor
set of the precursor and the prerequisite counter of the successor are
untouched. -/
theorem claim_invalid_edge {s : Scheduler} {hP hS : Handle}
    {tP tS : TaskRec}
    (hrP : resolve s hP = some tP) (hrS : resolve s hS = some tS)
    (hbad : hP = hS ∨ tS.state = .running ∨ tS.state = .completed) :
    task_depends s hP hS = (.error .invalidEdge, s) :=
  task_depends_invalid_edge hrP hrS hbad

set_option maxRecDepth 8192 in
/-- Witness for C5 at a concrete input: in the demonstration run, right
after hA has completed, registering an edge with completed hA as
successor fails with InvalidEdge and returns the state unchanged. -/
theorem claim_invalid_edge_witness :
    task_depends (sAt 4 demoOps 14) hB hA
      = (Except.error Err.invalidEdge, sAt 4 demoOps 14) :=
  claim_invalid_edge
    (by decide :
      resolve (sAt 4 demoOps 14) hB = some ⟨.activated, 1, [hD]⟩)
    (by decide :
      resolve (sAt 4 demoOps 14) hA = some ⟨.completed, 0, []⟩)
    (Or.inr (Or.inr rfl))

/-- C6: when every slot of the handle table is occupied, task_create
fails, signals the failure with the reserved all-zero null handle, and
returns the state unchanged, corrupting no existing task. -/
theorem claim_allocation_error {s : Scheduler}
    (hfull : ∀ j, j < s.slots.length →
      (s.slots[j]?.bind Slot.occ).isSome = true) :
    task_create s = (nullHandle, s) := by
  unfold task_create
  rw [findFree_none hfull]

/-- Witness for C6 at a concrete input: a table of capacity two is
exhausted by two successful creates; the third create returns the null
handle and leaves the state unchanged. -/
theorem claim_allocation_error_witness :
    task_create (run (initSched 2) [Op.create, Op.create])
      = (nullHandle, run (initSched 2) [Op.create, Op.create]) :=
  claim_allocation_error (by decide)

/-- C7: edge registration is precursor-first: a successful
task_depends s hP hS appends the second argument to the successor set of
the first argument and increments the prerequisite counter of the second
argument, leaving queue and pending untouched, so completion of the
first argument is what later enables the second. -/
theorem claim_precursor_first {s : Scheduler} {hP hS : Handle}
    {tP tS : TaskRec}
    (hrP : resolve s hP = some tP) (hrS : resolve s hS = some tS)
    (hok : (task_depends s hP hS).1 = .ok ()) :
    resolve (task_depends s hP hS).2 hP
      = some { tP with succs := tP.succs ++ [hS] }
    ∧ resolve (task_depends s hP hS).2 hS
      = some { tS with prereq := tS.prereq + 1 }
    ∧ (task_depends s hP hS).2.queue = s.queue
    ∧ (task_depends s hP hS).2.pending = s.pending := by
  unfold task_depends at hok ⊢
  split at hok
  · rename_i tP2 tS2 hr1 hr2
    rw [hrP] at hr1
    rw [hrS] at hr2
    cases hr1
    cases hr2
    split at hok
    · exact absurd hok (by simp)
    · rename_i hne
      split at hok
      · exact absurd hok (by simp)
      · rename_i hst
        have hi : hP.index ≠ hS.index := by
          intro he
          exact hne (handle_eq_of_same_index hrP hrS he).1
        rw [if_neg hne, if_neg hst]
        refine ⟨?_, ?_, rfl, rfl⟩
        · show resolve (updateTask (updateTask s hP
              { tP with succs := tP.succs ++ [hS] }) hS
              { tS with prereq := tS.prereq + 1 }) hP
            = some { tP with succs := tP.succs ++ [hS] }
          rw [resolve_updateTask_ne (fun he => hi he.symm)]
          exact resolve_updateTask_self hrP
        · show resolve (updateTask (updateTask s hP
              { tP with succs := tP.succs ++ [hS] }) hS
              { tS with prereq := tS.prereq + 1 }) hS
            = some { tS with prereq := tS.prereq + 1 }
          have hrS1 : resolve (updateTask s hP
              { tP with succs := tP.succs ++ [hS] }) hS = some tS := by
            rw [resolve_updateTask_ne hi]
            exact hrS
          exact resolve_updateTask_self hrS1
  · rename_i hcontra
    exact absurd hok (by simp)

set_option maxRecDepth 8192 in
/-- Witness for C7 at a concrete input: registering the edge from hB to
hD in the demonstration run appends hD to the successor set of hB and
increments the counter of hD. -/
theorem claim_precursor_first_witness :
    resolve (task_depends (sAt 4 demoOps 6) hB hD).2 hB
      = some ⟨.created, 1, [hD]⟩ :=
  (claim_precursor_first
    (by decide : resolve (sAt 4 demoOps 6) hB = some ⟨.created, 1, []⟩)
    (by decide : resolve (sAt 4 demoOps 6) hD = some ⟨.created, 0, []⟩)
    (by decide)).1

/-- C10: the growable-array allocator is error-atomic: whenever
array_allocate fails it returns the null pointer and leaves the array
variable entirely unchanged (in particular it never switches it to the
failed state); it does fail when the array has failed or when pos is
SIZE_MAX. -/
theorem claim_array_allocate_error_atomic (x : ArrayState)
    (esize pos mem : Nat) :
    ((array_allocate x esize pos mem).1 = none →
      (array_allocate x esize pos mem).2 = x)
    ∧ (x = .failed → (array_allocate x esize pos mem).1 = none)
    ∧ (pos = SIZE_MAX → (array_allocate x esize pos mem).1 = none) := by
  refine ⟨?_, ?_, ?_⟩
  · intro hfail
    cases x with
    | failed => rfl
    | unallocated =>
      simp only [array_allocate] at hfail ⊢
      split_ifs at hfail ⊢ <;> first | rfl | exact absurd hfail (by simp)
    | allocated region initBytes =>
      simp only [array_allocate] at hfail ⊢
      split_ifs at hfail ⊢ <;> first | rfl | exact absurd hfail (by simp)
  · intro hx
    subst hx
    rfl
  · intro hp
    cases x with
    | failed => rfl
    | unallocated =>
      simp only [array_allocate, if_pos hp]
    | allocated region initBytes =>
      simp only [array_allocate, if_pos hp]

/-- Witness for C10 at a concrete input: allocation on a failed array
returns the null pointer and leaves the array in the failed state, not
mutated. -/
theorem claim_array_allocate_error_atomic_witness :
    (array_allocate ArrayState.failed 1 0 1000).2 = ArrayState.failed :=
  (claim_array_allocate_error_atomic ArrayState.failed 1 0 1000).1 rfl

/- ### The declared handle type (C9) -/

instance : Fintype task_handle :=
  Fintype.ofEquiv (Fin (2 ^ intBits))
    ⟨task_handle.mk, task_handle.id, fun _ => rfl, fun _ => rfl⟩

theorem task_handle_card : Fintype.card task_handle = 2 ^ intBits := by
  rw [← Fintype.card_fin (2 ^ intBits)]
  exact Fintype.card_congr
    ⟨task_handle.id, task_handle.mk, fun _ => rfl, fun _ => rfl⟩

/-- C9 counterexample: the caller-visible handle type declared by the
source, struct task_handle, consists of a single machine integer, not of
two: no pair of two machine integers can be stored injectively in a
task_handle, so the handle cannot consist of two integers in the sense of
carrying a slot index and a generation as two separate machine words. -/
theorem claim_handle_two_ints_counterexample :
    ¬ ∃ f : Fin (2 ^ intBits) × Fin (2 ^ intBits) → task_handle,
        Function.Injective f := by
  rintro ⟨f, hf⟩
  have hcard := Fintype.card_le_of_injective f hf
  rw [task_handle_card, Fintype.card_prod, Fintype.card_fin] at hcard
  norm_num [intBits] at hcard

/-- C9 amended: the handle is a small value type consisting of one
machine integer whose lower bits encode the slot index and whose upper
bits encode the generation; the pair of the two encoded fields uniquely
determines the handle, the handle is freely copyable and comparable for
equality, and there is exactly one reserved all-zero null value (id 0),
which is the handle whose two encoded fields are both zero. -/
theorem claim_handle_amended :
    (∀ h h' : task_handle, handleIndex h = handleIndex h' →
        handleGeneration h = handleGeneration h' → h = h')
    ∧ (∀ h : task_handle, h = nullTaskHandle ↔
        handleIndex h = 0 ∧ handleGeneration h = 0)
    ∧ (∃! h : task_handle, h.id.val = 0)
    ∧ (∀ h h' : task_handle, h = h' ∨ h ≠ h') := by
  refine ⟨?_, ?_, ?_, fun h h' => eq_or_ne h h'⟩
  · intro h h' hi hg
    unfold handleIndex at hi
    unfold handleGeneration at hg
    have hv : h.id.val = h'.id.val := by
      have d1 := Nat.div_add_mod h.id.val (2 ^ indexBits)
      have d2 := Nat.div_add_mod h'.id.val (2 ^ indexBits)
      norm_num [indexBits] at hi hg d1 d2 ⊢
      omega
    cases h
    cases h'
    simp_all [Fin.val_inj]
  · intro h
    constructor
    · intro he
      subst he
      exact ⟨rfl, rfl⟩
    · rintro ⟨hi, hg⟩
      unfold handleIndex at hi
      unfold handleGeneration at hg
      have hv : h.id.val = 0 := by
        have d1 := Nat.div_add_mod h.id.val (2 ^ indexBits)
        norm_num [indexBits] at hi hg d1
        omega
      cases h
      unfold nullTaskHandle
      congr 1
      exact Fin.ext (by simpa using hv)
  · refine ⟨nullTaskHandle, rfl, ?_⟩
    intro h hh
    cases h
    unfold nullTaskHandle
    congr 1
    exact Fin.ext (by simpa using hh)

/-- Witness for the amended C9 at a concrete input: two handles with id
77 agree on both encoded fields and are therefore equal. -/
theorem claim_handle_amended_witness :
    (⟨⟨77, by norm_num [intBits]⟩⟩ : task_handle)
      = ⟨⟨77, by norm_num [intBits]⟩⟩ :=
  claim_handle_amended.1 _ _ rfl rfl

/- ### Synchronous error reporting (C8) -/

theorem task_depends_eq_some {s : Scheduler} {h1 h2 : Handle}
    {tP tS : TaskRec}
    (hr1 : resolve s h1 = some tP) (hr2 : resolve s h2 = some tS) :
    task_depends s h1 h2 =
      if h1 = h2 then (.error .invalidEdge, s)
      else if tS.state = .running ∨ tS.state = .completed then
        (.error .invalidEdge, s)
      else
        (.ok (), updateTask (updateTask s h1
          { tP with succs := tP.succs ++ [h2] })
          h2 { tS with prereq := tS.prereq + 1 }) := by
  unfold task_depends
  split
  · rename_i tP2 tS2 hr1' hr2'
    rw [hr1] at hr1'
    rw [hr2] at hr2'
    cases hr1'
    cases hr2'
    rfl
  · rename_i hcontra
    exact (hcontra tP tS hr1 hr2).elim

theorem task_start_eq_some {s : Scheduler} {h : Handle} {t : TaskRec}
    (hr : resolve s h = some t) :
    task_start s h =
      if t.state = .created then
        if t.prereq = 0 then
          (.ok (), { updateTask s h { t with state := .ready } with
            queue := (updateTask s h { t with state := .ready }).queue ++ [h] })
        else (.ok (), updateTask s h { t with state := .activated })
      else (.ok (), s) := by
  unfold task_start
  split
  · rename_i hr'
    rw [hr] at hr'
    exact absurd hr' (by simp)
  · rename_i t2 hr'
    rw [hr] at hr'
    cases hr'
    rfl

/-- C8: every error of the modelled surface is reported synchronously,
in the return value of the very call that triggered it: task_depends
returns InvalidHandle exactly when one of its handles fails to resolve
and InvalidEdge exactly when both resolve but the edge is a self-edge or
the successor has reached running or completed; task_start returns
InvalidHandle exactly when its handle fails to resolve; every erroneous
call returns the state unchanged, and task_create signals
AllocationError by returning the null handle while leaving the state
unchanged.  No error is deferred to a later operation. -/
theorem claim_errors_synchronous (s : Scheduler) (h1 h2 h : Handle) :
    ((task_depends s h1 h2).1 = .error .invalidHandle ↔
      (resolve s h1 = none ∨ resolve s h2 = none))
    ∧ ((task_depends s h1 h2).1 = .error .invalidEdge ↔
      (∃ tP tS, resolve s h1 = some tP ∧ resolve s h2 = some tS ∧
        (h1 = h2 ∨ tS.state = .running ∨ tS.state = .completed)))
    ∧ ((task_start s h).1 = .error .invalidHandle ↔ resolve s h = none)
    ∧ (∀ e, (task_depends s h1 h2).1 = .error e →
        (task_depends s h1 h2).2 = s)
    ∧ (∀ e, (task_start s h).1 = .error e → (task_start s h).2 = s)
    ∧ ((task_create s).1 = nullHandle → (task_create s).2 = s) := by
  refine ⟨?_, ?_, ?_, ?_, ?_, ?_⟩
  · constructor
    · intro he
      cases hr1 : resolve s h1 with
      | none => exact Or.inl rfl
      | some tP =>
        cases hr2 : resolve s h2 with
        | none => exact Or.inr rfl
        | some tS =>
          rw [task_depends_eq_some hr1 hr2] at he
          split_ifs at he <;> simp_all
    · intro hor
      rcases hor with hr1 | hr2
      · rw [task_depends_invalid_left hr1]
      · rw [task_depends_invalid_right hr2]
  · constructor
    · intro he
      cases hr1 : resolve s h1 with
      | none =>
        rw [task_depends_invalid_left hr1] at he
        simp at he
      | some tP =>
        cases hr2 : resolve s h2 with
        | none =>
          rw [task_depends_invalid_right hr2] at he
          simp at he
        | some tS =>
          refine ⟨tP, tS, rfl, rfl, ?_⟩
          rw [task_depends_eq_some hr1 hr2] at he
          by_cases hc1 : h1 = h2
          · exact Or.inl hc1
          · rw [if_neg hc1] at he
            by_cases hc2 : tS.state = .running ∨ tS.state = .completed
            · exact Or.inr hc2
            · rw [if_neg hc2] at he
              simp at he
    · rintro ⟨tP, tS, hr1, hr2, hbad⟩
      rw [task_depends_invalid_edge hr1 hr2 hbad]
  · cases hr : resolve s h with
    | none =>
      rw [task_start_invalid hr]
      simp
    | some t =>
      rw [task_start_eq_some hr]
      constructor
      · intro he
        split_ifs at he <;> simp_all
      · intro he
        exact absurd he (by simp)
  · intro e he
    cases hr1 : resolve s h1 with
    | none => rw [task_depends_invalid_left hr1]
    | some tP =>
      cases hr2 : resolve s h2 with
      | none => rw [task_depends_invalid_right hr2]
      | some tS =>
        rw [task_depends_eq_some hr1 hr2] at he ⊢
        split_ifs at he ⊢ <;> simp_all
  · intro e he
    cases hr : resolve s h with
    | none => rw [task_start_invalid hr]
    | some t =>
      rw [task_start_eq_some hr] at he ⊢
      split_ifs at he ⊢ <;> simp_all
  · unfold task_create
    split
    · intro _
      rfl
    · rename_i j hf
      split
      · intro _
        rfl
      · rename_i sl hget
        intro hnull
        exfalso
        have hh : (⟨j, sl.gen + 1⟩ : Handle) = nullHandle := hnull
        simp [nullHandle] at hh

set_option maxRecDepth 8192 in
/-- Witness for C8 at a concrete input: a depends call on the stale
handle hA reports its error at the call and leaves the state unchanged. -/
theorem claim_errors_synchronous_witness :
    (task_depends (run (initSched 4) demoOps) hA hB).2
      = run (initSched 4) demoOps :=
  (claim_errors_synchronous (run (initSched 4) demoOps) hA hB hA).2.2.2.1
    Err.invalidHandle (by decide)

/- ### C1: the lifecycle is traversed in order, each state entered once -/

theorem transAt_unique (n : Nat) (ops : List Op) (h : Handle)
    (l : Lifecycle) : ∀ t u : Nat, transAt n ops t h l = true →
    transAt n ops u h l = true → t = u := by
  intro t u h1 h2
  unfold transAt at h1 h2
  simp only [Bool.and_eq_true, decide_eq_true_eq] at h1 h2
  obtain ⟨hne1, heq1⟩ := h1
  obtain ⟨hne2, heq2⟩ := h2
  rw [stateOf_iff_phase] at heq1 heq2
  by_contra hneq
  rcases Nat.lt_or_ge t u with hlt | hge
  · have hm1 : phase (sAt n ops (t + 1)).slots h
        ≤ phase (sAt n ops u).slots h :=
      sAt_phase_mono n ops h (by omega)
    rw [heq1] at hm1
    have hm2 : phase (sAt n ops u).slots h
        ≤ phase (sAt n ops (u + 1)).slots h :=
      sAt_phase_mono n ops h (by omega)
    rw [heq2] at hm2
    exact hne2 (stateOf_iff_phase.2 (by omega))
  · have hlt : u < t := by omega
    have hm1 : phase (sAt n ops (u + 1)).slots h
        ≤ phase (sAt n ops t).slots h :=
      sAt_phase_mono n ops h (by omega)
    rw [heq2] at hm1
    have hm2 : phase (sAt n ops t).slots h
        ≤ phase (sAt n ops (t + 1)).slots h :=
      sAt_phase_mono n ops h (by omega)
    rw [heq1] at hm2
    exact hne1 (stateOf_iff_phase.2 (by omega))

/-- C1: along every execution of the modelled scheduler and for every
handle, the lifecycle states occur only in the documented order created,
activated, ready, running, completed (the observed rank never decreases),
and the task transitions into running at most once and into completed at
most once: exactly-once execution. -/
theorem claim_lifecycle_order (n : Nat) (ops : List Op) (h : Handle) :
    (∀ t u : Nat, ∀ l l' : Lifecycle, t ≤ u →
        stateOf (sAt n ops t) h = some l →
        stateOf (sAt n ops u) h = some l' → rank l ≤ rank l')
    ∧ (∀ t u : Nat, transAt n ops t h .running = true →
        transAt n ops u h .running = true → t = u)
    ∧ (∀ t u : Nat, transAt n ops t h .completed = true →
        transAt n ops u h .completed = true → t = u) := by
  refine ⟨?_, transAt_unique n ops h .running, transAt_unique n ops h .completed⟩
  intro t u l l' htu hst hsu
  rw [stateOf_iff_phase] at hst hsu
  rw [← hst, ← hsu]
  exact sAt_phase_mono n ops h htu

set_option maxRecDepth 8192 in
/-- Witness for C1 at a concrete input: in the demonstration run hA is
running at time 13 and completed at time 14, in order, and the step into
running at time 12 is the unique one. -/
theorem claim_lifecycle_order_witness :
    rank .running ≤ rank .completed ∧ (12 : Nat) = 12 := by
  have H := claim_lifecycle_order 4 demoOps hA
  exact ⟨H.1 13 14 .running .completed (by omega) (by decide) (by decide),
    H.2.1 12 12 (by decide) (by decide)⟩

/- ### C2: pushes onto the ready queue are unique and never dropped -/

theorem pushAt_phases {n : Nat} {ops : List Op} {t : Nat} {h : Handle}
    (hp : pushAt n ops t h = true) :
    phase (sAt n ops t).slots h < 3
    ∧ phase (sAt n ops (t + 1)).slots h = 3 := by
  unfold pushAt at hp
  simp only [decide_eq_true_eq] at hp
  have hq1 := invQ_sAt n ops t h
  have hq2 := invQ_sAt n ops (t + 1) h
  have hmono := sAt_phase_succ_mono n ops h t
  rw [hq1, hq2] at hp
  split_ifs at hp <;> omega

theorem pushAt_unique (n : Nat) (ops : List Op) (h : Handle) :
    ∀ t u : Nat, pushAt n ops t h = true → pushAt n ops u h = true →
    t = u := by
  intro t u h1 h2
  obtain ⟨l1, r1⟩ := pushAt_phases h1
  obtain ⟨l2, r2⟩ := pushAt_phases h2
  by_contra hne
  rcases Nat.lt_or_ge t u with hlt | hge
  · have := sAt_phase_mono n ops h (show t + 1 ≤ u by omega)
    omega
  · have := sAt_phase_mono n ops h (show u + 1 ≤ t by omega)
    omega

theorem sAt_zero (n : Nat) (ops : List Op) : sAt n ops 0 = initSched n := rfl

theorem ready_implies_pushed (n : Nat) (ops : List Op) (h : Handle)
    (hex : ∃ t : Nat, stateOf (sAt n ops t) h = some .ready) :
    ∃ t : Nat, pushAt n ops t h = true := by
  obtain ⟨t0, ht0⟩ := hex
  rw [stateOf_iff_phase] at ht0
  have hEx : ∃ t : Nat, phase (sAt n ops t).slots h = 3 := ⟨t0, ht0⟩
  have hm := Nat.find_spec hEx
  have hmin : ∀ u, u < Nat.find hEx → phase (sAt n ops u).slots h ≠ 3 :=
    fun u hu => Nat.find_min hEx hu
  have hm0 : Nat.find hEx ≠ 0 := by
    intro he
    rw [he, sAt_zero] at hm
    rcases phase_initSched n h with h0 | h6 <;> omega
  refine ⟨Nat.find hEx - 1, ?_⟩
  unfold pushAt
  simp only [decide_eq_true_eq]
  have he1 : Nat.find hEx - 1 + 1 = Nat.find hEx := by omega
  rw [invQ_sAt n ops (Nat.find hEx - 1) h, he1,
    invQ_sAt n ops (Nat.find hEx) h]
  rw [if_neg (hmin _ (by omega)), if_pos hm]
  omega

/- ### Prerequisite counters along an execution -/

theorem resolve_ne_index {s : Scheduler} {h h' : Handle} {t t' : TaskRec}
    (hr : resolve s h = some t) (hr' : resolve s h' = some t')
    (hne : h ≠ h') : h.index ≠ h'.index :=
  fun he => hne (handle_eq_of_same_index hr hr' he).1

theorem resolve_setSlot_ne {s : Scheduler} {j : Nat} {sl : Slot}
    {h : Handle} (hj : j ≠ h.index) :
    resolve (setSlot s j sl) h = resolve s h :=
  resolveSlots_set_ne hj

theorem findFree_ne_resolved {s : Scheduler} {j : Nat} {h : Handle}
    {t : TaskRec} (hf : findFree s.slots = some j)
    (hr : resolve s h = some t) : j ≠ h.index := by
  intro he
  obtain ⟨sl2, hget2, hocc2⟩ := findFree_some hf
  subst he
  rw [getElem?_of_resolve hr] at hget2
  cases hget2
  exact absurd hocc2 (by simp)

theorem task_depends_ok_cases {s : Scheduler} {a b : Handle}
    (hok : (task_depends s a b).1 = Except.ok ()) :
    ∃ tP tS, resolve s a = some tP ∧ resolve s b = some tS ∧ a ≠ b ∧
      (task_depends s a b).2 = updateTask (updateTask s a
        { tP with succs := tP.succs ++ [b] }) b
        { tS with prereq := tS.prereq + 1 } := by
  unfold task_depends at hok ⊢
  split at hok
  · rename_i tP tS hr1 hr2
    split at hok
    · exact absurd hok (by simp)
    · rename_i hne
      split at hok
      · exact absurd hok (by simp)
      · rename_i hst
        exact ⟨tP, tS, hr1, hr2, hne, by rw [if_neg hne, if_neg hst]⟩
  · exact absurd hok (by simp)

theorem task_depends_error_snd {s : Scheduler} {a b : Handle}
    (hok : (task_depends s a b).1 ≠ Except.ok ()) :
    (task_depends s a b).2 = s := by
  cases hr1 : resolve s a with
  | none => rw [task_depends_invalid_left hr1]
  | some tP =>
    cases hr2 : resolve s b with
    | none => rw [task_depends_invalid_right hr2]
    | some tS =>
      rw [task_depends_eq_some hr1 hr2] at hok ⊢
      split_ifs at hok ⊢ <;> first | rfl | exact absurd rfl hok

theorem prereq_le_of_update {s : Scheduler} {h0 h : Handle}
    {t0 t t' : TaskRec} (hr0 : resolve s h0 = some t0)
    (hr : resolve s h = some t) (tU : TaskRec)
    (hpp : tU.prereq ≤ t0.prereq)
    (hr' : resolve (updateTask s h0 tU) h = some t') :
    t'.prereq ≤ t.prereq := by
  by_cases hh : h0 = h
  · subst hh
    rw [hr] at hr0
    cases hr0
    rw [resolve_updateTask_self hr] at hr'
    cases hr'
    exact hpp
  · rw [resolve_updateTask_ne (resolve_ne_index hr0 hr hh)] at hr'
    rw [hr] at hr'
    cases hr'
    exact Nat.le_refl _

theorem prereq_step_le {s : Scheduler} {op : Op} {h : Handle}
    {t t' : TaskRec} (hr : resolve s h = some t)
    (hr' : resolve (step s op) h = some t')
    (hnd : ∀ a b : Handle, op = .depends a b → b = h →
      (task_depends s a b).1 ≠ Except.ok ()) :
    t'.prereq ≤ t.prereq := by
  cases op with
  | create =>
    have hr2 : resolve (task_create s).2 h = some t' := hr'
    unfold task_create at hr2
    split at hr2
    · rw [hr] at hr2
      cases hr2
      exact Nat.le_refl _
    · rename_i j hf
      split at hr2
      · rw [hr] at hr2
        cases hr2
        exact Nat.le_refl _
      · rename_i sl hget
        rw [resolve_setSlot_ne (findFree_ne_resolved hf hr)] at hr2
        rw [hr] at hr2
        cases hr2
        exact Nat.le_refl _
  | depends a b =>
    have hr2 : resolve (task_depends s a b).2 h = some t' := hr'
    by_cases hok : (task_depends s a b).1 = Except.ok ()
    · obtain ⟨tP, tS, hr1, hrb, hne, hsnd⟩ := task_depends_ok_cases hok
      have hb : b ≠ h := fun he => hnd a b rfl he hok
      rw [hsnd] at hr2
      rw [resolve_updateTask_ne (resolve_ne_index hrb hr hb)] at hr2
      by_cases hah : a = h
      · subst hah
        rw [hr] at hr1
        cases hr1
        rw [resolve_updateTask_self hr] at hr2
        cases hr2
        exact Nat.le_refl _
      · rw [resolve_updateTask_ne (resolve_ne_index hr1 hr hah)] at hr2
        rw [hr] at hr2
        cases hr2
        exact Nat.le_refl _
    · rw [task_depends_error_snd hok] at hr2
      rw [hr] at hr2
      cases hr2
      exact Nat.le_refl _
  | start h0 =>
    have hr2 : resolve (task_start s h0).2 h = some t' := hr'
    cases hr0 : resolve s h0 with
    | none =>
      rw [task_start_invalid hr0] at hr2
      rw [hr] at hr2
      cases hr2
      exact Nat.le_refl _
    | some t0 =>
      rw [task_start_eq_some hr0] at hr2
      by_cases hc1 : t0.state = .created
      · rw [if_pos hc1] at hr2
        by_cases hc2 : t0.prereq = 0
        · rw [if_pos hc2] at hr2
          have hr3 : resolve (updateTask s h0
              { t0 with state := .ready }) h = some t' := hr2
          exact prereq_le_of_update hr0 hr
            { t0 with state := .ready } (Nat.le_refl _) hr3
        · rw [if_neg hc2] at hr2
          have hr3 : resolve (updateTask s h0
              { t0 with state := .activated }) h = some t' := hr2
          exact prereq_le_of_update hr0 hr
            { t0 with state := .activated } (Nat.le_refl _) hr3
      · rw [if_neg hc1] at hr2
        have hr3 : resolve s h = some t' := hr2
        rw [hr] at hr3
        cases hr3
        exact Nat.le_refl _
  | dequeue =>
    have hr2 : resolve (stepDequeue s) h = some t' := hr'
    unfold stepDequeue at hr2
    split at hr2
    · rw [hr] at hr2
      cases hr2
      exact Nat.le_refl _
    · rename_i h0 rest hq
      split at hr2
      · rename_i t0 hr0
        split at hr2
        · rename_i hst
          have hr3 : resolve (updateTask s h0
              { t0 with state := .running }) h = some t' := hr2
          exact prereq_le_of_update hr0 hr
            { t0 with state := .running } (Nat.le_refl _) hr3
        · rw [hr] at hr2
          cases hr2
          exact Nat.le_refl _
      · rw [hr] at hr2
        cases hr2
        exact Nat.le_refl _
  | complete h0 =>
    have hr2 : resolve (stepComplete s h0) h = some t' := hr'
    unfold stepComplete at hr2
    split at hr2
    · rename_i t0 hr0
      split at hr2
      · rename_i hst
        have hr3 : resolve (updateTask s h0
            { t0 with state := .completed, succs := [] }) h = some t' := hr2
        exact prereq_le_of_update hr0 hr
          { t0 with state := .completed, succs := [] } (Nat.le_refl _) hr3
      · rw [hr] at hr2
        cases hr2
        exact Nat.le_refl _
    · rw [hr] at hr2
      cases hr2
      exact Nat.le_refl _
  | notify =>
    have hr2 : resolve (stepNotify s) h = some t' := hr'
    unfold stepNotify at hr2
    split at hr2
    · rw [hr] at hr2
      cases hr2
      exact Nat.le_refl _
    · rename_i h0 rest hpend
      unfold notifyOne at hr2
      split at hr2
      · rename_i t0 hr0
        have hrs : resolve { s with pending := rest } h = some t := hr
        split at hr2
        · rename_i hc
          have hr3 : resolve (updateTask { s with pending := rest } h0
              { t0 with prereq := 0, state := .ready }) h = some t' := hr2
          exact prereq_le_of_update hr0 hrs
            { t0 with prereq := 0, state := .ready } (Nat.zero_le _) hr3
        · have hr3 : resolve (updateTask { s with pending := rest } h0
              { t0 with prereq := t0.prereq - 1 }) h = some t' := hr2
          exact prereq_le_of_update hr0 hrs
            { t0 with prereq := t0.prereq - 1 } (Nat.sub_le _ _) hr3
      · have hr3 : resolve s h = some t' := hr2
        rw [hr] at hr3
        cases hr3
        exact Nat.le_refl _
  | recycle h0 =>
    have hr2 : resolve (stepRecycle s h0) h = some t' := hr'
    unfold stepRecycle at hr2
    split at hr2
    · rename_i t0 hr0
      split at hr2
      · rename_i hc
        by_cases hh : h0 = h
        · subst hh
          have hnone : resolve (setSlot s h0.index ⟨h0.gen, none⟩) h0
              = none := by
            show resolveSlots (s.slots.set h0.index ⟨h0.gen, none⟩) h0 = none
            rw [resolveSlots_set_self (index_lt_of_resolve hr0)]
            simp
          rw [hnone] at hr2
          exact absurd hr2 (by simp)
        · rw [resolve_setSlot_ne (resolve_ne_index hr0 hr hh)] at hr2
          rw [hr] at hr2
          cases hr2
          exact Nat.le_refl _
      · rw [hr] at hr2
        cases hr2
        exact Nat.le_refl _
    · rw [hr] at hr2
      cases hr2
      exact Nat.le_refl _

theorem resolve_of_phase_between {s : Scheduler} {h : Handle}
    (h1 : 1 ≤ phase s.slots h) (h5 : phase s.slots h ≤ 5) :
    ∃ t, resolve s h = some t := by
  cases hr : resolve s h with
  | some t => exact ⟨t, rfl⟩
  | none => rcases resolve_none_phase hr with h0 | h6 <;> omega

theorem resolve_sAt_between {n : Nat} {ops : List Op} {h : Handle}
    {a u b : Nat} {ta tb : TaskRec} (hau : a ≤ u) (hub : u ≤ b)
    (hra : resolve (sAt n ops a) h = some ta)
    (hrb : resolve (sAt n ops b) h = some tb) :
    ∃ tu, resolve (sAt n ops u) h = some tu := by
  have p1 := phase_of_resolve hra
  have p2 := phase_of_resolve hrb
  have m1 := sAt_phase_mono n ops h hau
  have m2 := sAt_phase_mono n ops h hub
  have r1 := rankPos ta.state
  have r2 := rank_le_five tb.state
  exact resolve_of_phase_between (by omega) (by omega)

theorem prereq_nonincreasing (n : Nat) (ops : List Op) (h : Handle) :
    ∀ d a : Nat, ∀ ta td : TaskRec,
    resolve (sAt n ops a) h = some ta →
    resolve (sAt n ops (a + d)) h = some td →
    (∀ u : Nat, a ≤ u → u < a + d → dependsOkAt n ops u h = false) →
    td.prereq ≤ ta.prereq := by
  intro d
  induction d with
  | zero =>
    intro a ta td hra hrd hnd
    rw [Nat.add_zero] at hrd
    rw [hra] at hrd
    cases hrd
    exact Nat.le_refl _
  | succ d ih =>
    intro a ta td hra hrd hnd
    obtain ⟨tm, hrm⟩ :=
      resolve_sAt_between (Nat.le_add_right a d)
        (show a + d ≤ a + (d + 1) by omega) hra hrd
    have step1 : tm.prereq ≤ ta.prereq :=
      ih a ta tm hra hrm (fun u hu1 hu2 => hnd u hu1 (by omega))
    have hrd' : resolve (sAt n ops (a + d + 1)) h = some td := hrd
    cases hop : ops[a + d]? with
    | none =>
      rw [sAt_succ_none hop, hrm] at hrd'
      cases hrd'
      exact step1
    | some op =>
      rw [sAt_succ_some hop] at hrd'
      have hnd' : ∀ x y : Handle, op = .depends x y → y = h →
          (task_depends (sAt n ops (a + d)) x y).1 ≠ Except.ok () := by
        intro x y hop2 hyh hok2
        rw [hyh] at hop2 hok2
        have hda : dependsOkAt n ops (a + d) h = true := by
          unfold dependsOkAt
          rw [hop, hop2]
          simp [hok2]
        rw [hnd (a + d) (Nat.le_add_right a d) (by omega)] at hda
        exact absurd hda (by simp)
      exact Nat.le_trans (prereq_step_le hrm hrd' hnd') step1

theorem notify_decrement {s : Scheduler} {h : Handle} {t : TaskRec}
    (hpend : s.pending.head? = some h) (hr : resolve s h = some t) :
    ∃ t', resolve (stepNotify s) h = some t'
      ∧ t'.prereq = t.prereq - 1 := by
  unfold stepNotify
  split
  · rename_i hpn
    rw [hpn] at hpend
    exact absurd hpend (by simp)
  · rename_i h0 rest hpn
    rw [hpn] at hpend
    simp only [List.head?_cons, Option.some_inj] at hpend
    subst hpend
    have hr0 : resolve { s with pending := rest } h0 = some t := hr
    unfold notifyOne
    split
    · rename_i t2 hr2
      rw [hr0] at hr2
      cases hr2
      split
      · rename_i hc
        refine ⟨{ t with prereq := 0, state := .ready }, ?_, by rw [hc.1]⟩
        exact resolve_updateTask_self hr0
      · exact ⟨{ t with prereq := t.prereq - 1 },
          resolve_updateTask_self hr0, rfl⟩
    · rename_i hr2
      rw [hr0] at hr2
      exact absurd hr2 (by simp)

theorem zeroObs_spec {n : Nat} {ops : List Op} {t : Nat} {h : Handle}
    (hz : zeroObsAt n ops t h = true) :
    ops[t]? = some .notify ∧ (sAt n ops t).pending.head? = some h ∧
    ∃ tt, resolve (sAt n ops t) h = some tt ∧ tt.prereq = 1 := by
  unfold zeroObsAt notifyPopAt at hz
  simp only [Bool.and_eq_true, decide_eq_true_eq] at hz
  obtain ⟨h1, h2⟩ := hz
  split at h1
  · rename_i heq
    refine ⟨heq, by simpa using h1, ?_⟩
    cases hrt : resolve (sAt n ops t) h with
    | none => rw [hrt] at h2; exact absurd h2 (by simp)
    | some tt =>
      rw [hrt] at h2
      simp only [Option.map_some', Option.some_inj] at h2
      exact ⟨tt, rfl, h2⟩
  · exact absurd h1 (by simp)

theorem zeroObs_next {n : Nat} {ops : List Op} {t : Nat} {h : Handle}
    (hz : zeroObsAt n ops t h = true) :
    ∃ t1, resolve (sAt n ops (t + 1)) h = some t1 ∧ t1.prereq = 0 := by
  obtain ⟨hop, hpend, tt, hrt, hp1⟩ := zeroObs_spec hz
  have hstep : sAt n ops (t + 1) = step (sAt n ops t) .notify :=
    sAt_succ_some hop
  obtain ⟨t1, hr1, hp⟩ := notify_decrement hpend hrt
  refine ⟨t1, ?_, by omega⟩
  rw [hstep]
  exact hr1

theorem dependsOkAt_lt_length {n : Nat} {ops : List Op} {v : Nat}
    {h : Handle} (hd : dependsOkAt n ops v h = true) : v < ops.length := by
  unfold dependsOkAt at hd
  split at hd
  · rename_i a b heq
    exact lt_of_getElem?_some heq
  · exact absurd hd (by simp)

theorem notifyPopAt_lt_length {n : Nat} {ops : List Op} {v : Nat}
    {h : Handle} (hd : notifyPopAt n ops v h = true) : v < ops.length := by
  unfold notifyPopAt at hd
  split at hd
  · rename_i heq
    exact lt_of_getElem?_some heq
  · exact absurd hd (by simp)

theorem zeroObsAt_unique (n : Nat) (ops : List Op) (h : Handle)
    (disc : ∀ t1 : Nat, t1 < ops.length → ∀ t2 : Nat, t2 < ops.length →
      notifyPopAt n ops t2 h = true → dependsOkAt n ops t1 h = true →
      t1 < t2) :
    ∀ t u : Nat, zeroObsAt n ops t h = true → zeroObsAt n ops u h = true →
    t = u := by
  have key : ∀ t u : Nat, t < u → zeroObsAt n ops t h = true →
      zeroObsAt n ops u h = true → False := by
    intro t u htu hzt hzu
    obtain ⟨t1, hr1, hp0⟩ := zeroObs_next hzt
    obtain ⟨hopu, hpendu, tu, hru, hpu⟩ := zeroObs_spec hzu
    have hnp : notifyPopAt n ops t h = true := by
      unfold zeroObsAt at hzt
      simp only [Bool.and_eq_true] at hzt
      exact hzt.1
    by_cases hex : ∃ v : Nat, t + 1 ≤ v ∧ v < u ∧
        dependsOkAt n ops v h = true
    · obtain ⟨v, hv1, hv2, hvd⟩ := hex
      have := disc v (dependsOkAt_lt_length hvd) t
        (notifyPopAt_lt_length hnp) hnp hvd
      omega
    · have hall : ∀ v : Nat, t + 1 ≤ v → v < t + 1 + (u - (t + 1)) →
          dependsOkAt n ops v h = false := by
        intro v h1 h2
        cases hb : dependsOkAt n ops v h with
        | false => rfl
        | true => exact absurd ⟨v, h1, by omega, hb⟩ hex
      have hru' : resolve (sAt n ops (t + 1 + (u - (t + 1)))) h
          = some tu := by
        rw [show t + 1 + (u - (t + 1)) = u by omega]
        exact hru
      have := prereq_nonincreasing n ops h (u - (t + 1)) (t + 1)
        t1 tu hr1 hru' hall
      omega
  intro t u h1 h2
  by_contra hne
  rcases Nat.lt_or_ge t u with hlt | hge
  · exact key t u hlt h1 h2
  · exact key u t (by omega) h2 h1

/-- C2: the completion cascade is race-free for every interleaving of the
modelled atomic steps.  Under the contract of the design spec that edge
registration onto a successor precedes the cascade notifications for it:
(a) at most one step observes the prerequisite counter of the successor
transition to exactly zero, (b) the successor is pushed onto the ready
queue at most once (no double-enqueue; this holds for every interleaving,
even without the contract), and (c) if the successor ever becomes ready
it was pushed exactly once (no dropped zero-transition). -/
theorem claim_zero_transition_unique (n : Nat) (ops : List Op) (h : Handle)
    (disc : ∀ t1 : Nat, t1 < ops.length → ∀ t2 : Nat, t2 < ops.length →
      notifyPopAt n ops t2 h = true → dependsOkAt n ops t1 h = true →
      t1 < t2) :
    (∀ t u : Nat, zeroObsAt n ops t h = true → zeroObsAt n ops u h = true →
      t = u)
    ∧ (∀ t u : Nat, pushAt n ops t h = true → pushAt n ops u h = true →
      t = u)
    ∧ ((∃ t : Nat, stateOf (sAt n ops t) h = some .ready) →
      ∃ t : Nat, pushAt n ops t h = true) :=
  ⟨zeroObsAt_unique n ops h disc, pushAt_unique n ops h,
    ready_implies_pushed n ops h⟩

set_option maxRecDepth 32768 in
/-- Witness for C2 at a concrete input: in the demonstration run the join
task hD of the diamond has its two precursors completed by separate
steps; the unique zero-observation happens at step 21, and hD, which
becomes ready, is pushed exactly once. -/
theorem claim_zero_transition_unique_witness :
    (21 : Nat) = 21 ∧ ∃ t : Nat, pushAt 4 demoOps t hD = true := by
  have H := claim_zero_transition_unique 4 demoOps hD (by decide)
  exact ⟨H.1 21 21 (by decide) (by decide), H.2.2 ⟨22, by decide⟩⟩

/- ### Reference counting under the atomic steps -/

theorem slotsRef_cons (a : Slot) (rest : List Slot) (h : Handle) :
    slotsRef (a :: rest) h = occSuccCount a.occ h + slotsRef rest h := by
  unfold slotsRef
  simp

theorem slotsRef_set {slots : List Slot} {j : Nat} {sl : Slot}
    (hget : slots[j]? = some sl) (sl' : Slot) (h : Handle) :
    slotsRef (slots.set j sl') h + occSuccCount sl.occ h
      = slotsRef slots h + occSuccCount sl'.occ h := by
  induction slots generalizing j with
  | nil => exact absurd hget (by simp)
  | cons a rest ih =>
    cases j with
    | zero =>
      simp only [List.getElem?_cons_zero, Option.some_inj] at hget
      subst hget
      rw [List.set_cons_zero, slotsRef_cons, slotsRef_cons]
      omega
    | succ j0 =>
      simp only [List.getElem?_cons_succ] at hget
      have := ih hget
      rw [List.set_cons_succ, slotsRef_cons, slotsRef_cons]
      omega

theorem count_single (b h : Handle) :
    List.count h [b] = if b = h then 1 else 0 := by
  by_cases hbh : b = h <;> simp [List.count_cons, hbh]

theorem refCount_set_same {s : Scheduler} {j : Nat} {sl : Slot}
    (hget : s.slots[j]? = some sl) {sl' : Slot}
    (he : ∀ h0 : Handle, occSuccCount sl'.occ h0 = occSuccCount sl.occ h0)
    (h : Handle) : refCount (setSlot s j sl') h = refCount s h := by
  unfold refCount
  rw [setSlot_slots, setSlot_pending]
  have h1 := slotsRef_set hget sl' h
  have h2 := he h
  omega

theorem refCount_update_same_succs {s : Scheduler} {h0 : Handle}
    {t0 : TaskRec} (hr : resolve s h0 = some t0) {t' : TaskRec}
    (hs : t'.succs = t0.succs) (h : Handle) :
    refCount (updateTask s h0 t') h = refCount s h :=
  refCount_set_same (getElem?_of_resolve hr)
    (fun h1 => by simp [occSuccCount, hs]) h

theorem refCount_append_succ {s : Scheduler} {a : Handle} {tP : TaskRec}
    (hr : resolve s a = some tP) (b : Handle) (h : Handle) :
    refCount (updateTask s a { tP with succs := tP.succs ++ [b] }) h
      = refCount s h + (if b = h then 1 else 0) := by
  unfold refCount
  rw [updateTask_slots, updateTask_pending]
  have h1 := slotsRef_set (getElem?_of_resolve hr)
    ⟨a.gen, some { tP with succs := tP.succs ++ [b] }⟩ h
  simp only [occSuccCount, List.count_append] at h1
  rw [count_single] at h1
  omega

theorem refCount_complete_eq {s : Scheduler} {h0 : Handle} {t0 : TaskRec}
    (hr : resolve s h0 = some t0) (h : Handle) :
    refCount { updateTask s h0 { t0 with state := .completed, succs := [] }
        with pending := s.pending ++ t0.succs } h = refCount s h := by
  unfold refCount
  have h1 := slotsRef_set (getElem?_of_resolve hr)
    ⟨h0.gen, some { t0 with state := .completed, succs := [] }⟩ h
  simp only [occSuccCount, List.count_nil] at h1
  show slotsRef (s.slots.set h0.index
      ⟨h0.gen, some { t0 with state := .completed, succs := [] }⟩) h
    + (s.pending ++ t0.succs).count h = slotsRef s.slots h + s.pending.count h
  rw [List.count_append]
  omega

theorem refCount_pop_pending {s : Scheduler} {h0 : Handle}
    {rest : List Handle} (hpend : s.pending = h0 :: rest) (h : Handle) :
    refCount { s with pending := rest } h + (if h0 = h then 1 else 0)
      = refCount s h := by
  unfold refCount
  show slotsRef s.slots h + rest.count h + (if h0 = h then 1 else 0)
    = slotsRef s.slots h + s.pending.count h
  rw [hpend]
  simp only [List.count_cons]
  by_cases hh : h0 = h
  · simp [hh]
    omega
  · simp [hh, fun hhh => hh hhh]

/- ### Preservation of the reference invariant -/

theorem slots_gen_le_set {slots : List Slot} {j : Nat} {sl : Slot}
    (hget : slots[j]? = some sl) (sl' : Slot) (hgen : sl.gen ≤ sl'.gen)
    {j0 : Nat} {sl0 : Slot} (hget0 : slots[j0]? = some sl0) :
    ∃ sl1 : Slot, (slots.set j sl')[j0]? = some sl1 ∧ sl0.gen ≤ sl1.gen := by
  by_cases hj : j = j0
  · subst hj
    rw [hget] at hget0
    cases hget0
    exact ⟨sl', List.getElem?_set_self (lt_of_getElem?_some hget), hgen⟩
  · exact ⟨sl0, by rw [List.getElem?_set_ne hj]; exact hget0, Nat.le_refl _⟩

theorem gen_le_updateTask {s : Scheduler} {h0 : Handle} {t0 : TaskRec}
    (hr : resolve s h0 = some t0) (t' : TaskRec) :
    ∀ j : Nat, ∀ sl : Slot, s.slots[j]? = some sl →
    ∃ sl1 : Slot, (updateTask s h0 t').slots[j]? = some sl1
      ∧ sl.gen ≤ sl1.gen := by
  intro j sl hget
  rw [updateTask_slots]
  exact slots_gen_le_set (getElem?_of_resolve hr)
    ⟨h0.gen, some t'⟩ (Nat.le_refl _) hget

theorem invA_of_le {s s' : Scheduler} (ha : InvA s)
    (hrc : ∀ h : Handle, 0 < refCount s' h → 0 < refCount s h)
    (hgen : ∀ j : Nat, ∀ sl : Slot, s.slots[j]? = some sl →
      ∃ sl1 : Slot, s'.slots[j]? = some sl1 ∧ sl.gen ≤ sl1.gen) :
    InvA s' := by
  intro h hpos
  obtain ⟨sl, hget, hle⟩ := ha h (hrc h hpos)
  obtain ⟨sl1, hget1, hle1⟩ := hgen h.index sl hget
  exact ⟨sl1, hget1, Nat.le_trans hle hle1⟩

theorem invA_of_update_same_succs {s : Scheduler} (ha : InvA s)
    {h0 : Handle} {t0 : TaskRec} (hr : resolve s h0 = some t0)
    (t' : TaskRec) (hs : t'.succs = t0.succs) {s' : Scheduler}
    (hslots : s'.slots = (updateTask s h0 t').slots)
    (hpend : s'.pending = s.pending) : InvA s' := by
  refine invA_of_le ha ?_ ?_
  · intro h hpos
    have e : refCount s' h = refCount s h := by
      unfold refCount
      rw [hslots, hpend, updateTask_slots]
      have h1 := slotsRef_set (getElem?_of_resolve hr) ⟨h0.gen, some t'⟩ h
      simp only [occSuccCount, hs] at h1
      omega
    rw [e] at hpos
    exact hpos
  · intro j sl hget
    rw [hslots]
    exact gen_le_updateTask hr t' j sl hget

theorem invA_pop {s : Scheduler} (ha : InvA s) {h0 : Handle}
    {rest : List Handle} (hpend : s.pending = h0 :: rest) :
    InvA { s with pending := rest } := by
  intro h hpos
  have e := refCount_pop_pending hpend h
  exact ha h (by omega)

theorem invA_step {s : Scheduler} (ha : InvA s) (op : Op) :
    InvA (step s op) := by
  cases op with
  | create =>
    show InvA (task_create s).2
    unfold task_create
    split
    · exact ha
    · rename_i j hf
      split
      · exact ha
      · rename_i sl hget
        obtain ⟨sl2, hget2, hocc2⟩ := findFree_some hf
        rw [hget] at hget2
        cases hget2
        refine invA_of_le ha ?_ ?_
        · intro h hpos
          rw [refCount_set_same hget
            (fun h1 => by simp [occSuccCount, hocc2]) h] at hpos
          exact hpos
        · intro j0 sl0 hget0
          exact slots_gen_le_set hget
            ⟨sl.gen + 1, some ⟨.created, 0, []⟩⟩ (Nat.le_succ _) hget0
  | depends a b =>
    show InvA (task_depends s a b).2
    by_cases hok : (task_depends s a b).1 = Except.ok ()
    · obtain ⟨tP, tS, hr1, hrb, hne, hsnd⟩ := task_depends_ok_cases hok
      rw [hsnd]
      have hi : a.index ≠ b.index := resolve_ne_index hr1 hrb hne
      have hrb1 : resolve (updateTask s a
          { tP with succs := tP.succs ++ [b] }) b = some tS := by
        rw [resolve_updateTask_ne hi]
        exact hrb
      intro h hpos
      have e2 := refCount_update_same_succs hrb1
        (show ({ tS with prereq := tS.prereq + 1 }).succs = tS.succs from rfl) h
      have e1 := refCount_append_succ hr1 b h
      by_cases hbh : b = h
      · subst hbh
        refine ⟨⟨b.gen, some { tS with prereq := tS.prereq + 1 }⟩, ?_,
          Nat.le_refl _⟩
        show ((updateTask s a { tP with succs := tP.succs ++ [b] }).slots.set
          b.index ⟨b.gen, some { tS with prereq := tS.prereq + 1 }⟩)[b.index]?
          = _
        exact List.getElem?_set_self (by
          rw [updateTask_slots, List.length_set]
          exact index_lt_of_resolve hrb)
      · rw [e2, e1, if_neg hbh] at hpos
        obtain ⟨sl, hget, hle⟩ := ha h (by omega)
        obtain ⟨sl1, hget1, hle1⟩ := gen_le_updateTask hr1 _ h.index sl hget
        obtain ⟨sl2, hget2, hle2⟩ := gen_le_updateTask hrb1 _ h.index sl1 hget1
        exact ⟨sl2, hget2, by omega⟩
    · rw [show (task_depends s a b).2 = s from task_depends_error_snd hok]
      exact ha
  | start h0 =>
    show InvA (task_start s h0).2
    unfold task_start
    split
    · exact ha
    · rename_i t hr
      split
      · rename_i hst
        split
        · exact invA_of_update_same_succs ha hr
            { t with state := .ready } rfl rfl rfl
        · exact invA_of_update_same_succs ha hr
            { t with state := .activated } rfl rfl rfl
      · exact ha
  | dequeue =>
    show InvA (stepDequeue s)
    unfold stepDequeue
    split
    · exact ha
    · split
      · rename_i h0 rest hq t hr
        split
        · exact invA_of_update_same_succs ha hr
            { t with state := .running } rfl rfl rfl
        · exact ha
      · exact ha
  | complete h0 =>
    show InvA (stepComplete s h0)
    unfold stepComplete
    split
    · rename_i t hr
      split
      · refine invA_of_le ha ?_ ?_
        · intro h hpos
          rw [refCount_complete_eq hr h] at hpos
          exact hpos
        · intro j sl hget
          exact gen_le_updateTask hr _ j sl hget
      · exact ha
    · exact ha
  | notify =>
    show InvA (stepNotify s)
    unfold stepNotify
    split
    · exact ha
    · rename_i h0 rest hpend
      have ha0 : InvA { s with pending := rest } := invA_pop ha hpend
      unfold notifyOne
      split
      · rename_i t hr
        split
        · exact invA_of_update_same_succs ha0 hr
            { t with prereq := 0, state := .ready } rfl rfl rfl
        · exact invA_of_update_same_succs ha0 hr
            { t with prereq := t.prereq - 1 } rfl rfl rfl
      · exact ha0
  | recycle h0 =>
    show InvA (stepRecycle s h0)
    unfold stepRecycle
    split
    · rename_i t hr
      split
      · rename_i hc
        refine invA_of_le ha ?_ ?_
        · intro h hpos
          rw [refCount_set_same (getElem?_of_resolve hr)
            (fun h1 => by simp [occSuccCount, hc.2]) h] at hpos
          exact hpos
        · intro j sl hget
          exact slots_gen_le_set (getElem?_of_resolve hr)
            ⟨h0.gen, none⟩ (Nat.le_refl _) hget
      · exact ha
    · exact ha

/- ### Preservation of the counter invariant -/

theorem resolve_updateTask_cases {s : Scheduler} {h0 : Handle}
    {t0 : TaskRec} (hr : resolve s h0 = some t0) {t' : TaskRec}
    (h : Handle) (hne : h ≠ h0) :
    resolve (updateTask s h0 t') h = resolve s h
    ∨ resolve (updateTask s h0 t') h = none := by
  by_cases hi : h0.index = h.index
  · right
    have hgen : ¬ h0.gen = h.gen := by
      intro he
      apply hne
      cases h
      cases h0
      simp_all
    show resolveSlots ((updateTask s h0 t').slots) h = none
    rw [updateTask_slots, hi,
      resolveSlots_set_self (by rw [← hi]; exact index_lt_of_resolve hr)]
    rw [if_neg hgen]
  · left
    exact resolve_updateTask_ne hi

theorem invB_updateTask_simple {s : Scheduler} (hb : InvB s) {h0 : Handle}
    {t0 : TaskRec} (hr : resolve s h0 = some t0) (t' : TaskRec)
    (hs : t'.succs = t0.succs) (hp : t'.prereq = t0.prereq) :
    InvB (updateTask s h0 t') := by
  intro h t1 hr1
  have e : refCount (updateTask s h0 t') h = refCount s h :=
    refCount_update_same_succs hr hs h
  rw [e]
  by_cases hh : h = h0
  · subst hh
    rw [resolve_updateTask_self hr] at hr1
    cases hr1
    rw [hp]
    exact hb h t0 hr
  · rcases resolve_updateTask_cases hr h hh with he | he
    · rw [he] at hr1
      exact hb h t1 hr1
    · rw [he] at hr1
      exact absurd hr1 (by simp)

theorem invB_step {s : Scheduler} (ha : InvA s) (hb : InvB s) (op : Op) :
    InvB (step s op) := by
  cases op with
  | create =>
    show InvB (task_create s).2
    unfold task_create
    split
    · exact hb
    · rename_i j hf
      split
      · exact hb
      · rename_i sl hget
        obtain ⟨sl2, hget2, hocc2⟩ := findFree_some hf
        rw [hget] at hget2
        cases hget2
        intro h t1 hr1
        have e : refCount (setSlot s j
            ⟨sl.gen + 1, some ⟨.created, 0, []⟩⟩) h = refCount s h :=
          refCount_set_same hget
            (fun h1 => by simp [occSuccCount, hocc2]) h
        rw [e]
        by_cases hi : h.index = j
        · have hr1' : resolveSlots (s.slots.set j
              ⟨sl.gen + 1, some ⟨.created, 0, []⟩⟩) h = some t1 := hr1
          rw [← hi] at hr1'
          rw [resolveSlots_set_self
            (by rw [hi]; exact lt_of_getElem?_some hget)] at hr1'
          split at hr1'
          · rename_i hgen
            cases hr1'
            show refCount s h ≤ 0
            by_contra hpos
            obtain ⟨sl0, hget0, hle0⟩ := ha h (by omega)
            rw [hi, hget] at hget0
            cases hget0
            simp only at hgen
            omega
          · exact absurd hr1' (by simp)
        · have hr1' : resolveSlots (s.slots.set j
              ⟨sl.gen + 1, some ⟨.created, 0, []⟩⟩) h = some t1 := hr1
          rw [resolveSlots_set_ne (fun he => hi he.symm)] at hr1'
          exact hb h t1 hr1'
  | depends a b =>
    show InvB (task_depends s a b).2
    by_cases hok : (task_depends s a b).1 = Except.ok ()
    · obtain ⟨tP, tS, hr1, hrb, hne, hsnd⟩ := task_depends_ok_cases hok
      rw [hsnd]
      have hi : a.index ≠ b.index := resolve_ne_index hr1 hrb hne
      have hrb1 : resolve (updateTask s a
          { tP with succs := tP.succs ++ [b] }) b = some tS := by
        rw [resolve_updateTask_ne hi]
        exact hrb
      intro h t1 hr2'
      have e2 := refCount_update_same_succs hrb1
        (show ({ tS with prereq := tS.prereq + 1 }).succs = tS.succs
          from rfl) h
      have e1 := refCount_append_succ hr1 b h
      rw [e2, e1]
      by_cases hbh : h = b
      · subst hbh
        rw [resolve_updateTask_self hrb1] at hr2'
        cases hr2'
        have := hb h tS hrb
        simp only [if_pos rfl]
        show refCount s h + 1 ≤ tS.prereq + 1
        omega
      · rw [if_neg (fun he => hbh he.symm)]
        rcases resolve_updateTask_cases hrb1 h hbh with he | he
        · rw [he] at hr2'
          by_cases hah : h = a
          · subst hah
            rw [resolve_updateTask_self hr1] at hr2'
            cases hr2'
            have := hb h tP hr1
            show refCount s h + 0 ≤ tP.prereq
            omega
          · rcases resolve_updateTask_cases hr1 h hah with he2 | he2
            · rw [he2] at hr2'
              have := hb h t1 hr2'
              omega
            · rw [he2] at hr2'
              exact absurd hr2' (by simp)
        · rw [he] at hr2'
          exact absurd hr2' (by simp)
    · rw [show (task_depends s a b).2 = s from task_depends_error_snd hok]
      exact hb
  | start h0 =>
    show InvB (task_start s h0).2
    unfold task_start
    split
    · exact hb
    · rename_i t hr
      split
      · rename_i hst
        split
        · exact invB_updateTask_simple hb hr
            { t with state := .ready } rfl rfl
        · exact invB_updateTask_simple hb hr
            { t with state := .activated } rfl rfl
      · exact hb
  | dequeue =>
    show InvB (stepDequeue s)
    unfold stepDequeue
    split
    · exact hb
    · split
      · rename_i h0 rest hq t hr
        split
        · exact invB_updateTask_simple hb hr
            { t with state := .running } rfl rfl
        · exact hb
      · exact hb
  | complete h0 =>
    show InvB (stepComplete s h0)
    unfold stepComplete
    split
    · rename_i t hr
      split
      · rename_i hst
        intro h t1 hr1
        have hr1' : resolve (updateTask s h0
            { t with state := .completed, succs := [] }) h = some t1 := hr1
        have e := refCount_complete_eq hr h
        rw [e]
        by_cases hh : h = h0
        · subst hh
          rw [resolve_updateTask_self hr] at hr1'
          cases hr1'
          exact hb h t hr
        · rcases resolve_updateTask_cases hr h hh with he | he
          · rw [he] at hr1'
            exact hb h t1 hr1'
          · rw [he] at hr1'
            exact absurd hr1' (by simp)
      · exact hb
    · exact hb
  | notify =>
    show InvB (stepNotify s)
    unfold stepNotify
    split
    · exact hb
    · rename_i h0 rest hpend
      unfold notifyOne
      split
      · rename_i t hr
        have hr0 : resolve s h0 = some t := hr
        split
        · rename_i hc
          intro h t1 hr1
          have hr1' : resolve (updateTask { s with pending := rest } h0
              { t with prereq := 0, state := .ready }) h = some t1 := hr1
          have hrs0 : resolve { s with pending := rest } h0 = some t := hr0
          have hs1 : ({ t with prereq := 0, state := Lifecycle.ready } : TaskRec).succs = t.succs := rfl
          have e : refCount (updateTask { s with pending := rest } h0
              { t with prereq := 0, state := .ready }) h
              = refCount { s with pending := rest } h :=
            refCount_update_same_succs hrs0 hs1 h
          have epop := refCount_pop_pending hpend h
          by_cases hh : h = h0
          · subst hh
            rw [resolve_updateTask_self hrs0] at hr1'
            cases hr1'
            have hble := hb h t hr0
            show refCount (updateTask { s with pending := rest } h
              { t with prereq := 0, state := .ready }) h ≤ 0
            rw [e]
            have e2 : (if h = h then 1 else 0) = 1 := if_pos rfl
            rw [e2] at epop
            omega
          · rcases resolve_updateTask_cases hrs0 h hh with he | he
            · rw [he] at hr1'
              have hr1'' : resolve s h = some t1 := hr1'
              have hble := hb h t1 hr1''
              show refCount (updateTask { s with pending := rest } h0
                { t with prereq := 0, state := .ready }) h ≤ t1.prereq
              rw [e]
              omega
            · rw [he] at hr1'
              exact absurd hr1' (by simp)
        · intro h t1 hr1
          have hr1' : resolve (updateTask { s with pending := rest } h0
              { t with prereq := t.prereq - 1 }) h = some t1 := hr1
          have hrs0 : resolve { s with pending := rest } h0 = some t := hr0
          have hs1 : ({ t with prereq := t.prereq - 1 } : TaskRec).succs = t.succs := rfl
          have e : refCount (updateTask { s with pending := rest } h0
              { t with prereq := t.prereq - 1 }) h
              = refCount { s with pending := rest } h :=
            refCount_update_same_succs hrs0 hs1 h
          have epop := refCount_pop_pending hpend h
          by_cases hh : h = h0
          · subst hh
            rw [resolve_updateTask_self hrs0] at hr1'
            cases hr1'
            have hble := hb h t hr0
            show refCount (updateTask { s with pending := rest } h
              { t with prereq := t.prereq - 1 }) h ≤ t.prereq - 1
            rw [e]
            have e2 : (if h = h then 1 else 0) = 1 := if_pos rfl
            rw [e2] at epop
            omega
          · rcases resolve_updateTask_cases hrs0 h hh with he | he
            · rw [he] at hr1'
              have hr1'' : resolve s h = some t1 := hr1'
              have hble := hb h t1 hr1''
              show refCount (updateTask { s with pending := rest } h0
                { t with prereq := t.prereq - 1 }) h ≤ t1.prereq
              rw [e]
              omega
            · rw [he] at hr1'
              exact absurd hr1' (by simp)
      · intro h t1 hr1
        have hr1' : resolve s h = some t1 := hr1
        have hble := hb h t1 hr1'
        have epop := refCount_pop_pending hpend h
        show refCount { s with pending := rest } h ≤ t1.prereq
        omega
  | recycle h0 =>
    show InvB (stepRecycle s h0)
    unfold stepRecycle
    split
    · rename_i t hr
      split
      · rename_i hc
        intro h t1 hr1
        have e : refCount (setSlot s h0.index ⟨h0.gen, none⟩) h
            = refCount s h :=
          refCount_set_same (getElem?_of_resolve hr)
            (fun h1 => by simp [occSuccCount, hc.2]) h
        rw [e]
        by_cases hi : h.index = h0.index
        · have hr1' : resolveSlots (s.slots.set h0.index
              ⟨h0.gen, none⟩) h = some t1 := hr1
          rw [← hi] at hr1'
          rw [resolveSlots_set_self
            (by rw [hi]; exact index_lt_of_resolve hr)] at hr1'
          split at hr1'
          · exact absurd hr1' (by simp)
          · exact absurd hr1' (by simp)
        · have hr1' : resolveSlots (s.slots.set h0.index
              ⟨h0.gen, none⟩) h = some t1 := hr1
          rw [resolveSlots_set_ne (fun he => hi he.symm)] at hr1'
          exact hb h t1 hr1'
      · exact hb
    · exact hb

theorem refCount_initSched (n : Nat) (h : Handle) :
    refCount (initSched n) h = 0 := by
  simp [refCount, initSched, slotsRef, List.map_replicate, occSuccCount,
    List.sum_replicate]

theorem invA_initSched (n : Nat) : InvA (initSched n) := by
  intro h hpos
  rw [refCount_initSched] at hpos
  omega

theorem invB_initSched (n : Nat) : InvB (initSched n) := by
  intro h t hr
  have hr' : resolveSlots (List.replicate n ⟨0, none⟩) h = some t := hr
  unfold resolveSlots at hr'
  split at hr'
  · rename_i sl hg
    rw [List.getElem?_eq_some] at hg
    obtain ⟨hlt, hv⟩ := hg
    rw [List.getElem_replicate] at hv
    rw [← hv] at hr'
    split at hr' <;> exact absurd hr' (by simp)
  · exact absurd hr' (by simp)

theorem invAB_run {s : Scheduler} (ha : InvA s) (hb : InvB s)
    (ops : List Op) : InvA (run s ops) ∧ InvB (run s ops) := by
  induction ops generalizing s with
  | nil => exact ⟨ha, hb⟩
  | cons op rest ih => exact ih (invA_step ha op) (invB_step ha hb op)

theorem invAB_sAt (n : Nat) (ops : List Op) (t : Nat) :
    InvA (sAt n ops t) ∧ InvB (sAt n ops t) :=
  invAB_run (invA_initSched n) (invB_initSched n) _

/- ### Persistence of registered edges -/

theorem resolve_updateTask_of_resolves {s : Scheduler} {h0 h : Handle}
    {t0 t : TaskRec} (hr0 : resolve s h0 = some t0)
    (hr : resolve s h = some t) (hne : h ≠ h0) (t' : TaskRec) :
    resolve (updateTask s h0 t') h = some t := by
  rw [resolve_updateTask_ne (resolve_ne_index hr0 hr (fun he => hne he.symm))]
  exact hr

theorem slotsRef_ge_of_mem {slots : List Slot} {j : Nat} {sl : Slot}
    (hg : slots[j]? = some sl) (h : Handle) :
    occSuccCount sl.occ h ≤ slotsRef slots h := by
  unfold slotsRef
  rw [List.getElem?_eq_some] at hg
  obtain ⟨hlt, hv⟩ := hg
  have hmem : occSuccCount sl.occ h ∈
      slots.map (fun sl2 => occSuccCount sl2.occ h) :=
    List.mem_map.mpr ⟨sl, by rw [← hv]; exact slots.getElem_mem hlt, rfl⟩
  exact List.single_le_sum (fun x _ => Nat.zero_le x) _ hmem

theorem edgeAlive_refCount {s : Scheduler} {hP hS : Handle}
    (he : edgeAlive s hP hS) : 1 ≤ slotsRef s.slots hS := by
  obtain ⟨t, hr, hmem⟩ := he
  have hg := getElem?_of_resolve hr
  have h1 : occSuccCount (some t) hS ≤ slotsRef s.slots hS :=
    slotsRef_ge_of_mem hg hS
  have h2 : 1 ≤ occSuccCount (some t) hS := by
    show 1 ≤ t.succs.count hS
    exact List.count_pos_iff_mem.mpr hmem
  omega

theorem edgeAlive_step {s : Scheduler} {hP hS : Handle}
    (he : edgeAlive s hP hS) (op : Op) :
    edgeAlive (step s op) hP hS ∨ 5 ≤ phase (step s op).slots hP := by
  obtain ⟨t, hr, hmem⟩ := he
  cases op with
  | create =>
    left
    show edgeAlive (task_create s).2 hP hS
    unfold task_create
    split
    · exact ⟨t, hr, hmem⟩
    · rename_i j hf
      split
      · exact ⟨t, hr, hmem⟩
      · rename_i sl hget
        refine ⟨t, ?_, hmem⟩
        rw [resolve_setSlot_ne (findFree_ne_resolved hf hr)]
        exact hr
  | depends a b =>
    left
    show edgeAlive (task_depends s a b).2 hP hS
    by_cases hok : (task_depends s a b).1 = Except.ok ()
    · obtain ⟨tP, tS, hra, hrb, hne, hsnd⟩ := task_depends_ok_cases hok
      rw [hsnd]
      have hrb1 : resolve (updateTask s a
          { tP with succs := tP.succs ++ [b] }) b = some tS := by
        rw [resolve_updateTask_ne (resolve_ne_index hra hrb hne)]
        exact hrb
      by_cases hPa : hP = a
      · subst hPa
        have ht : t = tP := by rw [hr] at hra; cases hra; rfl
        subst ht
        have hPb : hP ≠ b := hne
        have hr1 : resolve (updateTask s hP
            { t with succs := t.succs ++ [b] }) hP
            = some { t with succs := t.succs ++ [b] } :=
          resolve_updateTask_self hra
        refine ⟨{ t with succs := t.succs ++ [b] }, ?_, ?_⟩
        · exact resolve_updateTask_of_resolves hrb1 hr1 hPb _
        · exact List.mem_append_left _ hmem
      · by_cases hPb : hP = b
        · subst hPb
          have ht : t = tS := by rw [hr] at hrb; cases hrb; rfl
          subst ht
          have hr1 : resolve (updateTask s a
              { tP with succs := tP.succs ++ [hP] }) hP = some t := by
            rw [resolve_updateTask_ne
              (resolve_ne_index hra hr (fun he2 => hPa he2.symm))]
            exact hr
          exact ⟨{ t with prereq := t.prereq + 1 },
            resolve_updateTask_self hr1, hmem⟩
        · have hr1 : resolve (updateTask s a
              { tP with succs := tP.succs ++ [b] }) hP = some t :=
            resolve_updateTask_of_resolves hra hr hPa _
          exact ⟨t, resolve_updateTask_of_resolves hrb1 hr1 hPb _, hmem⟩
    · rw [show (task_depends s a b).2 = s from task_depends_error_snd hok]
      exact ⟨t, hr, hmem⟩
  | start h0 =>
    left
    show edgeAlive (task_start s h0).2 hP hS
    unfold task_start
    split
    · exact ⟨t, hr, hmem⟩
    · rename_i t0 hr0
      split
      · split
        · by_cases hP0 : hP = h0
          · subst hP0
            have ht : t = t0 := by rw [hr] at hr0; cases hr0; rfl
            subst ht
            refine ⟨{ t with state := .ready }, ?_, hmem⟩
            show resolve (updateTask s hP { t with state := .ready }) hP
              = some { t with state := .ready }
            exact resolve_updateTask_self hr
          · refine ⟨t, ?_, hmem⟩
            show resolve (updateTask s h0
              { t0 with state := .ready }) hP = some t
            exact resolve_updateTask_of_resolves hr0 hr hP0 _
        · by_cases hP0 : hP = h0
          · subst hP0
            have ht : t = t0 := by rw [hr] at hr0; cases hr0; rfl
            subst ht
            exact ⟨{ t with state := .activated },
              resolve_updateTask_self hr, hmem⟩
          · exact ⟨t, resolve_updateTask_of_resolves hr0 hr hP0 _, hmem⟩
      · exact ⟨t, hr, hmem⟩
  | dequeue =>
    left
    show edgeAlive (stepDequeue s) hP hS
    unfold stepDequeue
    split
    · exact ⟨t, hr, hmem⟩
    · rename_i h0 rest hq
      split
      · rename_i t0 hr0
        split
        · by_cases hP0 : hP = h0
          · subst hP0
            have ht : t = t0 := by rw [hr] at hr0; cases hr0; rfl
            subst ht
            refine ⟨{ t with state := .running }, ?_, hmem⟩
            show resolve (updateTask s hP { t with state := .running }) hP
              = some { t with state := .running }
            exact resolve_updateTask_self hr
          · refine ⟨t, ?_, hmem⟩
            show resolve (updateTask s h0
              { t0 with state := .running }) hP = some t
            exact resolve_updateTask_of_resolves hr0 hr hP0 _
        · exact ⟨t, hr, hmem⟩
      · exact ⟨t, hr, hmem⟩
  | complete h0 =>
    show edgeAlive (stepComplete s h0) hP hS
      ∨ 5 ≤ phase (stepComplete s h0).slots hP
    unfold stepComplete
    split
    · rename_i t0 hr0
      split
      · by_cases hP0 : hP = h0
        · right
          subst hP0
          have h5 : phase (updateTask s hP
              { t0 with state := .completed, succs := [] }).slots hP = 5 := by
            rw [phase_updateTask_at hr0]
            rfl
          show 5 ≤ phase (updateTask s hP
            { t0 with state := .completed, succs := [] }).slots hP
          omega
        · left
          refine ⟨t, ?_, hmem⟩
          show resolve (updateTask s h0
            { t0 with state := .completed, succs := [] }) hP = some t
          exact resolve_updateTask_of_resolves hr0 hr hP0 _
      · exact Or.inl ⟨t, hr, hmem⟩
    · exact Or.inl ⟨t, hr, hmem⟩
  | notify =>
    left
    show edgeAlive (stepNotify s) hP hS
    unfold stepNotify
    split
    · exact ⟨t, hr, hmem⟩
    · rename_i h0 rest hpend
      unfold notifyOne
      split
      · rename_i t0 hr0
        have hrP : resolve { s with pending := rest } hP = some t := hr
        split
        · by_cases hP0 : hP = h0
          · subst hP0
            have ht : t = t0 := by
              have hr0' : resolve s hP = some t0 := hr0
              rw [hr] at hr0'
              cases hr0'
              rfl
            subst ht
            refine ⟨{ t with prereq := 0, state := .ready }, ?_, hmem⟩
            show resolve (updateTask { s with pending := rest } hP
                { t with prereq := 0, state := .ready }) hP
              = some { t with prereq := 0, state := .ready }
            exact resolve_updateTask_self hrP
          · refine ⟨t, ?_, hmem⟩
            show resolve (updateTask { s with pending := rest } h0
              { t0 with prereq := 0, state := .ready }) hP = some t
            exact resolve_updateTask_of_resolves hr0 hrP hP0 _
        · by_cases hP0 : hP = h0
          · subst hP0
            have ht : t = t0 := by
              have hr0' : resolve s hP = some t0 := hr0
              rw [hr] at hr0'
              cases hr0'
              rfl
            subst ht
            exact ⟨{ t with prereq := t.prereq - 1 },
              resolve_updateTask_self hrP, hmem⟩
          · exact ⟨t, resolve_updateTask_of_resolves hr0 hrP hP0 _, hmem⟩
      · exact ⟨t, hr, hmem⟩
  | recycle h0 =>
    left
    show edgeAlive (stepRecycle s h0) hP hS
    unfold stepRecycle
    split
    · rename_i t0 hr0
      split
      · rename_i hc
        by_cases hP0 : hP = h0
        · subst hP0
          have ht : t = t0 := by rw [hr] at hr0; cases hr0; rfl
          subst ht
          rw [hc.2] at hmem
          exact absurd hmem (List.not_mem_nil hS)
        · refine ⟨t, ?_, hmem⟩
          rw [resolve_setSlot_ne
            (resolve_ne_index hr0 hr (fun he2 => hP0 he2.symm))]
          exact hr
      · exact ⟨t, hr, hmem⟩
    · exact ⟨t, hr, hmem⟩

theorem rank_le_two_of_early {t : TaskRec}
    (hlo : t.state = .created ∨ t.state = .activated) :
    rank t.state ≤ 2 := by
  rcases hlo with h1 | h1 <;> rw [h1] <;> simp [rank]

theorem phase_jump_cases {s : Scheduler} {op : Op} {h : Handle}
    {t : TaskRec} (hr : resolve s h = some t)
    (hlo : t.state = .created ∨ t.state = .activated)
    (h3 : 3 ≤ phase (step s op).slots h) :
    (op = Op.start h ∧ t.prereq = 0 ∧ t.state = .created)
    ∨ (∃ rest, op = Op.notify ∧ s.pending = h :: rest
        ∧ t.prereq = 1 ∧ t.state = .activated) := by
  have hcur : phase s.slots h = rank t.state := phase_of_resolve hr
  have hle2 : rank t.state ≤ 2 := rank_le_two_of_early hlo
  cases op with
  | create =>
    exfalso
    have h3' : 3 ≤ phase (task_create s).2.slots h := h3
    unfold task_create at h3'
    split at h3'
    · exact absurd (show 3 ≤ phase s.slots h from h3') (by omega)
    · rename_i j hf
      split at h3'
      · exact absurd (show 3 ≤ phase s.slots h from h3') (by omega)
      · rename_i sl hget
        rw [show (setSlot s j ⟨sl.gen + 1, some ⟨.created, 0, []⟩⟩).slots
            = s.slots.set j ⟨sl.gen + 1, some ⟨.created, 0, []⟩⟩ from rfl,
          phase_set_ne (findFree_ne_resolved hf hr)] at h3'
        omega
  | depends a b =>
    exfalso
    have h3' : 3 ≤ phase (task_depends s a b).2.slots h := h3
    by_cases hok : (task_depends s a b).1 = Except.ok ()
    · obtain ⟨tP, tS, hra, hrb, hne, hsnd⟩ := task_depends_ok_cases hok
      rw [hsnd] at h3'
      have hrb1 : resolve (updateTask s a
          { tP with succs := tP.succs ++ [b] }) b = some tS := by
        rw [resolve_updateTask_ne (resolve_ne_index hra hrb hne)]
        exact hrb
      rw [phase_updateTask_congr hrb1 { tS with prereq := tS.prereq + 1 }
          rfl h,
        phase_updateTask_congr hra { tP with succs := tP.succs ++ [b] }
          rfl h] at h3'
      omega
    · rw [show (task_depends s a b).2 = s from task_depends_error_snd hok]
        at h3'
      omega
  | start h0 =>
    have h3' : 3 ≤ phase (task_start s h0).2.slots h := h3
    unfold task_start at h3'
    split at h3'
    · exact absurd (show 3 ≤ phase s.slots h from h3') (by omega)
    · rename_i t0 hr0
      split at h3'
      · rename_i hst
        split at h3'
        · rename_i hpre
          by_cases hP0 : h = h0
          · subst hP0
            have ht : t = t0 := by rw [hr] at hr0; cases hr0; rfl
            subst ht
            exact Or.inl ⟨rfl, hpre, hst⟩
          · exfalso
            have he : phase (updateTask s h0
                { t0 with state := .ready }).slots h = phase s.slots h :=
              phase_updateTask_other hr0 _ hP0
            have h3'' : 3 ≤ phase (updateTask s h0
                { t0 with state := .ready }).slots h := h3'
            omega
        · exfalso
          by_cases hP0 : h = h0
          · subst hP0
            have ht : t = t0 := by rw [hr] at hr0; cases hr0; rfl
            subst ht
            rw [phase_updateTask_at hr0] at h3'
            have : rank ({ t with state := .activated } : TaskRec).state
                = 2 := rfl
            omega
          · rw [phase_updateTask_other hr0 _ hP0] at h3'
            omega
      · exact absurd (show 3 ≤ phase s.slots h from h3') (by omega)
  | dequeue =>
    exfalso
    have h3' : 3 ≤ phase (stepDequeue s).slots h := h3
    unfold stepDequeue at h3'
    split at h3'
    · omega
    · rename_i h0 rest hq
      split at h3'
      · rename_i t0 hr0
        split at h3'
        · rename_i hst
          by_cases hP0 : h = h0
          · subst hP0
            rw [hr] at hr0
            cases hr0
            rcases hlo with h1 | h1 <;> rw [h1] at hst <;> exact absurd hst
              (by simp)
          · have he : phase (updateTask s h0
                { t0 with state := .running }).slots h = phase s.slots h :=
              phase_updateTask_other hr0 _ hP0
            have h3'' : 3 ≤ phase (updateTask s h0
                { t0 with state := .running }).slots h := h3'
            omega
        · omega
      · omega
  | complete h0 =>
    exfalso
    have h3' : 3 ≤ phase (stepComplete s h0).slots h := h3
    unfold stepComplete at h3'
    split at h3'
    · rename_i t0 hr0
      split at h3'
      · rename_i hst
        by_cases hP0 : h = h0
        · subst hP0
          rw [hr] at hr0
          cases hr0
          rcases hlo with h1 | h1 <;> rw [h1] at hst <;> exact absurd hst
            (by simp)
        · have he : phase (updateTask s h0
              { t0 with state := .completed, succs := [] }).slots h
              = phase s.slots h :=
            phase_updateTask_other hr0 _ hP0
          have h3'' : 3 ≤ phase (updateTask s h0
              { t0 with state := .completed, succs := [] }).slots h := h3'
          omega
      · omega
    · omega
  | notify =>
    have h3' : 3 ≤ phase (stepNotify s).slots h := h3
    unfold stepNotify at h3'
    split at h3'
    · exact absurd h3' (by omega)
    · rename_i h0 rest hpend
      unfold notifyOne at h3'
      split at h3'
      · rename_i t0 hr0
        have hr0' : resolve s h0 = some t0 := hr0
        split at h3'
        · rename_i hc
          by_cases hP0 : h = h0
          · subst hP0
            have ht : t = t0 := by rw [hr] at hr0'; cases hr0'; rfl
            subst ht
            exact Or.inr ⟨rest, rfl, hpend, hc.1, hc.2⟩
          · exfalso
            have hrP : resolve { s with pending := rest } h0 = some t0 :=
              hr0'
            have he : phase (updateTask { s with pending := rest } h0
                { t0 with prereq := 0, state := .ready }).slots h
                = phase s.slots h :=
              phase_updateTask_other hrP _ hP0
            have h3'' : 3 ≤ phase (updateTask { s with pending := rest } h0
                { t0 with prereq := 0, state := .ready }).slots h := h3'
            omega
        · exfalso
          have hrP : resolve { s with pending := rest } h0 = some t0 := hr0'
          have he : phase (updateTask { s with pending := rest } h0
              { t0 with prereq := t0.prereq - 1 }).slots h
              = phase s.slots h :=
            phase_updateTask_congr hrP { t0 with prereq := t0.prereq - 1 }
              rfl h
          omega
      · exact absurd (show 3 ≤ phase s.slots h from h3') (by omega)
  | recycle h0 =>
    exfalso
    have h3' : 3 ≤ phase (stepRecycle s h0).slots h := h3
    unfold stepRecycle at h3'
    split at h3'
    · rename_i t0 hr0
      split at h3'
      · rename_i hc
        by_cases hP0 : h = h0
        · subst hP0
          rw [hr] at hr0
          cases hr0
          rcases hlo with h1 | h1 <;> rw [h1] at hc <;> exact absurd hc.1
            (by simp)
        · rw [show (setSlot s h0.index ⟨h0.gen, none⟩).slots
              = s.slots.set h0.index ⟨h0.gen, none⟩ from rfl,
            phase_set_ne
              (resolve_ne_index hr0 hr (fun he2 => hP0 he2.symm))] at h3'
          omega
      · omega
    · omega

theorem edge_or_done {n : Nat} {ops : List Op} {hP hS : Handle} {i : Nat}
    (base : edgeAlive (sAt n ops (i + 1)) hP hS) :
    ∀ u, i + 1 ≤ u →
      edgeAlive (sAt n ops u) hP hS ∨ 5 ≤ phase (sAt n ops u).slots hP := by
  intro u hu
  induction u, hu using Nat.le_induction with
  | base => exact Or.inl base
  | succ u hu ih =>
    cases hop : ops[u]? with
    | none =>
      rw [sAt_succ_none hop]
      exact ih
    | some op =>
      rw [sAt_succ_some hop]
      rcases ih with hE | h5
      · exact edgeAlive_step hE op
      · exact Or.inr (le_trans h5 (step_phase_mono _ op hP))

/-- C3 (no early execution): when a dependency edge from a precursor to a
successor is successfully registered while the successor has not yet been
activated, then at every later point of the execution at which the
successor has entered the ready phase (or beyond), the precursor has
already completed.  In particular the successor cannot start executing
before the precursor has finished. -/
theorem claim_no_early_execution (n : Nat) (ops : List Op) (hP hS : Handle)
    (i : Nat) (hop : ops[i]? = some (Op.depends hP hS))
    (hok : (task_depends (sAt n ops i) hP hS).1 = Except.ok ())
    (hcr : stateOf (sAt n ops i) hS = some Lifecycle.created) :
    ∀ k, 3 ≤ phase (sAt n ops k).slots hS →
      5 ≤ phase (sAt n ops k).slots hP := by
  obtain ⟨tP, tS, hra, hrb, hne, hsnd⟩ := task_depends_ok_cases hok
  have hstep : sAt n ops (i + 1) = step (sAt n ops i) (.depends hP hS) :=
    sAt_succ_some hop
  have hrb1 : resolve (updateTask (sAt n ops i) hP
      { tP with succs := tP.succs ++ [hS] }) hS = some tS := by
    rw [resolve_updateTask_ne (resolve_ne_index hra hrb hne)]
    exact hrb
  have hbase : edgeAlive (sAt n ops (i + 1)) hP hS := by
    rw [hstep]
    show edgeAlive (task_depends (sAt n ops i) hP hS).2 hP hS
    rw [hsnd]
    have hr1 : resolve (updateTask (sAt n ops i) hP
        { tP with succs := tP.succs ++ [hS] }) hP
        = some { tP with succs := tP.succs ++ [hS] } :=
      resolve_updateTask_self hra
    refine ⟨{ tP with succs := tP.succs ++ [hS] }, ?_, ?_⟩
    · exact resolve_updateTask_of_resolves hrb1 hr1 hne _
    · exact List.mem_append_right _ (List.mem_singleton.mpr rfl)
  have hphi : phase (sAt n ops i).slots hS = rank Lifecycle.created :=
    stateOf_iff_phase.mp hcr
  have hrank1 : rank Lifecycle.created = 1 := rfl
  have hph1 : phase (sAt n ops (i + 1)).slots hS ≤ 2 := by
    rw [hstep]
    show phase (task_depends (sAt n ops i) hP hS).2.slots hS ≤ 2
    rw [hsnd,
      phase_updateTask_congr hrb1 { tS with prereq := tS.prereq + 1 } rfl hS,
      phase_updateTask_congr hra { tP with succs := tP.succs ++ [hS] } rfl hS]
    omega
  intro k hk3
  have hex : ∃ t, 3 ≤ phase (sAt n ops t).slots hS := ⟨k, hk3⟩
  have hm3 := Nat.find_spec hex
  have hmk : Nat.find hex ≤ k := Nat.find_min' hex hk3
  have hmge : i + 2 ≤ Nat.find hex := by
    by_contra hlt
    push_neg at hlt
    have hple : phase (sAt n ops (Nat.find hex)).slots hS
        ≤ phase (sAt n ops (i + 1)).slots hS :=
      sAt_phase_mono n ops hS (by omega)
    omega
  have hum : Nat.find hex = (Nat.find hex - 1) + 1 := by omega
  have hu1 : i + 1 ≤ Nat.find hex - 1 := by omega
  have hnp : ¬ 3 ≤ phase (sAt n ops (Nat.find hex - 1)).slots hS :=
    Nat.find_min hex (by omega)
  have hge1 : 1 ≤ phase (sAt n ops (Nat.find hex - 1)).slots hS := by
    have hmon := sAt_phase_mono n ops hS (show i ≤ Nat.find hex - 1 by omega)
    omega
  obtain ⟨tU, hrU⟩ := resolve_of_phase_between hge1 (by omega)
  have hphU := phase_of_resolve hrU
  have hlo : tU.state = .created ∨ tU.state = .activated := by
    cases hstU : tU.state
    · exact Or.inl rfl
    · exact Or.inr rfl
    · exfalso
      rw [hstU] at hphU
      have : rank Lifecycle.ready = 3 := rfl
      omega
    · exfalso
      rw [hstU] at hphU
      have : rank Lifecycle.running = 4 := rfl
      omega
    · exfalso
      rw [hstU] at hphU
      have : rank Lifecycle.completed = 5 := rfl
      omega
  cases hopu : ops[Nat.find hex - 1]? with
  | none =>
    exfalso
    rw [hum, sAt_succ_none hopu] at hm3
    exact hnp hm3
  | some op =>
    have h3step : 3 ≤ phase (step (sAt n ops (Nat.find hex - 1)) op).slots
        hS := by
      rw [hum, sAt_succ_some hopu] at hm3
      exact hm3
    rcases edge_or_done hbase (Nat.find hex - 1) hu1 with hE | h5P
    · exfalso
      have hinvB := (invAB_sAt n ops (Nat.find hex - 1)).2
      have hle := hinvB hS tU hrU
      have hsr := edgeAlive_refCount hE
      have hcnt : slotsRef (sAt n ops (Nat.find hex - 1)).slots hS
          ≤ refCount (sAt n ops (Nat.find hex - 1)) hS :=
        Nat.le_add_right _ _
      rcases phase_jump_cases hrU hlo h3step with ⟨hopeq, hpre0, hst⟩
        | ⟨rest, hopeq, hpend, hpre1, hst⟩
      · omega
      · have hcnt2 : 1 ≤ (sAt n ops (Nat.find hex - 1)).pending.count hS := by
          rw [hpend]
          simp [List.count_cons]
        have hsum : refCount (sAt n ops (Nat.find hex - 1)) hS
            = slotsRef (sAt n ops (Nat.find hex - 1)).slots hS
              + (sAt n ops (Nat.find hex - 1)).pending.count hS := rfl
        omega
    · exact le_trans h5P (sAt_phase_mono n ops hP (show Nat.find hex - 1 ≤ k
        by omega))

set_option maxRecDepth 32768 in
/-- Witness for C3 on the diamond trace: the edge from the second task to
the sink is registered at step 6 while the sink is still created; at step
22 the sink is ready and the second task has indeed completed. -/
theorem claim_no_early_execution_witness :
    demoOps[6]? = some (Op.depends hB hD)
    ∧ (task_depends (sAt 4 demoOps 6) hB hD).1 = Except.ok ()
    ∧ stateOf (sAt 4 demoOps 6) hD = some Lifecycle.created
    ∧ 3 ≤ phase (sAt 4 demoOps 22).slots hD
    ∧ 5 ≤ phase (sAt 4 demoOps 22).slots hB :=
  ⟨by decide, by decide, by decide, by decide,
   claim_no_early_execution 4 demoOps hB hD 6 (by decide) (by decide)
     (by decide) 22 (by decide)⟩
